import Mathlib

/-!
Verification development for the K.A.R.M.A. one-way folder synchronisation
engine (`src/sync/local.py`, `src/sync/service.py`, `src/core/scheduler.py`,
`src/core/file_monitor.py`, `src/core/orchestrator.py`,
`src/core/database.py`).

The Python code is shallowly embedded: directory listings and the
`file_states` table are association lists keyed by relative paths, the
success or failure of each filesystem transfer is an oracle
`ok : Path → Bool`, and the threaded scheduler/orchestrator is an explicit
step relation on an interleaving state.
-/

namespace Karma

/-- A relative path, as the list of its components (`os.path.relpath`
output split on the separator). -/
abbrev Path := List String

/-- Metadata of one file as obtained from `os.stat` in
`LocalSyncManager._get_files_list`: size, modification time, and the file
content (standing for the bytes that `FileUtils.get_file_hash` digests;
the model's fingerprint is the content itself). -/
structure FileMeta where
  size : Nat
  mtime : Nat
  content : Nat
deriving DecidableEq

/-- Model of `LocalSyncManager.calculate_file_hash` (local.py line 35):
the md5 fingerprint of a file, modelled as its content. -/
def calculate_file_hash (m : FileMeta) : Nat := m.content

/-- One row of the `file_states` table restricted to a single config
(database.py lines 119-128: unique on `(config_id, file_path)`). -/
structure FileStateRow where
  file_hash : Option Nat
  modified_time : Nat
  sync_status : String
deriving DecidableEq

/-- A directory listing: relative path to metadata, as built by
`LocalSyncManager._get_files_list`. -/
abbrev Listing := List (Path × FileMeta)

/-- The `file_states` rows of one configuration, keyed by `file_path`. -/
abbrev StateDB := List (Path × FileStateRow)

/-- First-match lookup in an association list (dict access / SQL select
by the unique key). -/
def lookupKey (p : Path) : List (Path × α) → Option α
  | [] => none
  | e :: l => if e.1 = p then some e.2 else lookupKey p l

/-- Key membership in an association list (Python `in` on a dict /
SQL row existence). -/
def containsKey (p : Path) (l : List (Path × α)) : Bool :=
  (lookupKey p l).isSome

/-- Remove every entry with the given key (SQL `DELETE ... WHERE
file_path = ?`, database.py lines 749-755, or `os.remove`). -/
def eraseKey (l : List (Path × α)) (p : Path) : List (Path × α) :=
  l.filter (fun e => decide (e.1 ≠ p))

/-- Replace-or-insert for the given key. `DatabaseManager.update_file_state`
is an SQLite `INSERT OR REPLACE` on the unique key (database.py lines
722-740), which drops the conflicting row and inserts the new one; a file
copy that overwrites the destination path behaves the same way on the
listing. -/
def upsertKey (l : List (Path × α)) (p : Path) (v : α) : List (Path × α) :=
  eraseKey l p ++ [(p, v)]

/-- An entry whose path has a component starting with a dot. `_get_files_list`
(local.py lines 284-291) prunes dot-directories from the walk and skips
dot-files, so exactly the paths without such a component are listed. -/
def hiddenPath (p : Path) : Bool := p.any (fun c => c.startsWith ".")

/-- Model of `LocalSyncManager._get_files_list` (local.py lines 272-306):
the recursive listing of a tree, excluding hidden files and the contents of
hidden directories. The input is the raw tree, the output the listing the
engine works on. -/
def get_files_list (tree : List (Path × FileMeta)) : Listing :=
  tree.filter (fun e => !hiddenPath e.1)

/-- Model of `LocalSyncManager._need_update` (local.py lines 308-354):
compare size, then modification time (update when the source is strictly
newer), then content fingerprint, then the stored `file_states` fingerprint
for this path. -/
def need_update (src tgt : FileMeta) (db : StateDB) (p : Path) : Bool :=
  if src.size ≠ tgt.size then true
  else if tgt.mtime < src.mtime then true
  else if calculate_file_hash src ≠ calculate_file_hash tgt then true
  else
    match lookupKey p db with
    | some st => decide (st.file_hash ≠ some (calculate_file_hash src))
    | none => false

/-- The run counters of `LocalSyncManager.sync_stats` (local.py lines 64-71). -/
structure SyncStats where
  copied : Nat
  updated : Nat
  deleted : Nat
  skipped : Nat
  errors : Nat
deriving DecidableEq

/-- One row of `sync_file_operations` as written by
`DatabaseManager.add_file_operation`; `sync_folders` writes such a row only
for operations that succeeded (local.py lines 160-171, 183-195, 226-236). -/
structure FileOp where
  operation_type : String
  file_path : Path
deriving DecidableEq

/-- The state threaded through one `sync_folders` run: the destination
listing, this config's `file_states` rows, the counters, and the
`sync_file_operations` log of the run. -/
structure EngineSt where
  target : Listing
  db : StateDB
  stats : SyncStats
  ops : List FileOp
deriving DecidableEq

/-- Model of `LocalSyncManager._update_file_state_in_db` (local.py lines
441-463): upsert the row for `p` with the source file's fingerprint and
mtime. -/
def update_file_state_in_db (db : StateDB) (p : Path) (m : FileMeta)
    (sync_status : String) : StateDB :=
  upsertKey db p ⟨some (calculate_file_hash m), m.mtime, sync_status⟩

/-- One iteration of the source loop of `sync_folders` (local.py lines
131-203) for the source entry `e`. Membership is tested against the
`target_files` snapshot taken before the loop; `ok e.1` is the success of
`_copy_file` (a failure increments the error counter and the loop
continues). On success the `file_states` row is upserted and a
`sync_file_operations` row is appended. -/
def sync_source_file (ok : Path → Bool) (target_files : Listing)
    (st : EngineSt) (e : Path × FileMeta) : EngineSt :=
  match lookupKey e.1 target_files with
  | none =>
      if ok e.1 then
        { target := upsertKey st.target e.1 e.2
          db := update_file_state_in_db st.db e.1 e.2 "synced"
          stats := { st.stats with copied := st.stats.copied + 1 }
          ops := st.ops ++ [⟨"copied", e.1⟩] }
      else { st with stats := { st.stats with errors := st.stats.errors + 1 } }
  | some tgt =>
      if need_update e.2 tgt st.db e.1 then
        if ok e.1 then
          { target := upsertKey st.target e.1 e.2
            db := update_file_state_in_db st.db e.1 e.2 "synced"
            stats := { st.stats with updated := st.stats.updated + 1 }
            ops := st.ops ++ [⟨"updated", e.1⟩] }
        else { st with stats := { st.stats with errors := st.stats.errors + 1 } }
      else { st with stats := { st.stats with skipped := st.stats.skipped + 1 } }

/-- One iteration of the delete loop of `sync_folders` (local.py lines
214-243) for the destination entry `e` of the pre-run snapshot: delete only
entries absent from the source whose path is in `synced_files` (the paths
holding a `file_states` row); `ok e.1` is the success of `_delete_file`.
On success the `file_states` row is removed and a `sync_file_operations`
row appended. -/
def delete_target_file (ok : Path → Bool) (source_files : Listing)
    (synced_files : List Path) (st : EngineSt) (e : Path × FileMeta) : EngineSt :=
  if containsKey e.1 source_files then st
  else if e.1 ∈ synced_files then
    if ok e.1 then
      { target := eraseKey st.target e.1
        db := eraseKey st.db e.1
        stats := { st.stats with deleted := st.stats.deleted + 1 }
        ops := st.ops ++ [⟨"deleted", e.1⟩] }
    else { st with stats := { st.stats with errors := st.stats.errors + 1 } }
  else st

/-- Model of `LocalSyncManager.sync_folders` (local.py lines 47-270) for an
existing source tree: `source_files` and `target_files` are the
`_get_files_list` listings of the two roots taken at the start of the run
(the source tree is fixed during a run, so the repeated `_get_files_list`
calls agree). After the source loop, when `delete_mode` is set, the
delete loop runs with `synced_files` snapshotted from the current
`file_states` (local.py lines 207-212). -/
def sync_folders (ok : Path → Bool) (source_files target_files : Listing)
    (db : StateDB) (delete_mode : Bool) : EngineSt :=
  let st0 : EngineSt := ⟨target_files, db, ⟨0, 0, 0, 0, 0⟩, []⟩
  let st1 := source_files.foldl (sync_source_file ok target_files) st0
  if delete_mode then
    let synced_files := st1.db.map Prod.fst
    target_files.foldl (delete_target_file ok source_files synced_files) st1
  else st1

/-- Model of `LocalSyncManager.update_file_states` (local.py lines 465-491):
upsert a `synced` row for every file of the current source listing, then
delete the rows whose path is no longer a source file (iterating over the
snapshot of the row keys). -/
def update_file_states (source_files : Listing) (db : StateDB) : StateDB :=
  let db1 := source_files.foldl
    (fun d e => update_file_state_in_db d e.1 e.2 "synced") db
  (db1.map Prod.fst).foldl
    (fun d p => if containsKey p source_files then d else eraseKey d p) db1

/-- One row of `sync_history` restricted to the fields the core writes:
status, the per-category counters, and whether `end_time` has been set
(a row with an end time is finalized). -/
structure HistRow where
  status : String
  files_copied : Nat
  files_updated : Nat
  files_deleted : Nat
  errors : Nat
  has_end_time : Bool
deriving DecidableEq

/-- Result of one `SyncService.sync_config` run. -/
structure ServiceResult where
  engine : EngineSt
  hist : List HistRow
  success : Bool
deriving DecidableEq

/-- The main path of `SyncService.sync_config` for a local target
(service.py lines 44-99 and 249-278), for a run in which the target path is
configured, the source folder exists, and the destination folder exists or
is created: create a `running` history row, run
`LocalSyncManager.sync_folders` with that row's id (which finalizes the row
as `success`/`error` with the counters, local.py lines 245-268), then run
`update_file_states`, and update the row again only if its status is still
`running`/`in_progress` (service.py lines 262-275). The early-abort
finalization branches are added by `sync_config` below. -/
def sync_config_local (ok : Path → Bool) (source_files target_files : Listing)
    (db : StateDB) (hist : List HistRow) (delete_mode : Bool) : ServiceResult :=
  let history_id := hist.length
  let hist1 := hist ++ [⟨"running", 0, 0, 0, 0, false⟩]
  let st := sync_folders ok source_files target_files db delete_mode
  let status := if st.stats.errors = 0 then "success" else "error"
  let hist2 := hist1.set history_id
    ⟨status, st.stats.copied, st.stats.updated, st.stats.deleted,
      st.stats.errors, true⟩
  let success := st.stats.errors = 0
  let db2 := update_file_states source_files st.db
  let rowStatus := (hist2.get? history_id).map HistRow.status
  let hist3 :=
    if rowStatus = some "running" ∨ rowStatus = some "in_progress" then
      hist2.set history_id
        ⟨if success then "completed" else "failed", st.stats.copied,
          st.stats.updated, st.stats.deleted, st.stats.errors, true⟩
    else hist2
  ⟨⟨st.target, db2, st.stats, st.ops⟩, hist3, success⟩

/-- The environment facts that select between the main path of a local
`SyncService.sync_config` run and its early-abort finalizations:
whether a target path is configured (service.py lines 86-88), whether the
source folder exists (local.py line 84), and whether the destination folder
exists or `os.makedirs` succeeds (local.py lines 101-124). -/
structure RunEnv where
  target_configured : Bool
  source_exists : Bool
  target_ok : Bool
deriving DecidableEq

/-- Model of a full local-target `SyncService.sync_config` run (service.py
lines 44-290), early aborts included.
Without a configured target path, the `ValueError` of service.py line 88 is
caught at lines 280-290: the row is finalized `failed` with an end time and
no counters, `update_file_states` never runs, and the run returns failure.
With a missing source folder, `sync_folders` returns its all-zero counters
after setting the row to `error` with no end time and no counters (local.py
lines 84-98); the service then computes success from the zero error counter
(service.py line 98, so the run reports success), runs `update_file_states`
over the missing source's empty listing — deleting every row — and skips
its own history update because the status is no longer running.
With a destination folder that cannot be created, `sync_folders` counts one
error and sets the row to `error` with no end time and no counters
(local.py lines 101-124); `update_file_states` still runs over the source
listing and the run returns failure.
Otherwise the run is the main path, `sync_config_local`. -/
def sync_config (env : RunEnv) (ok : Path → Bool)
    (source_files target_files : Listing) (db : StateDB)
    (hist : List HistRow) (delete_mode : Bool) : ServiceResult :=
  let history_id := hist.length
  let hist1 := hist ++ [⟨"running", 0, 0, 0, 0, false⟩]
  if env.target_configured = false then
    ⟨⟨target_files, db, ⟨0, 0, 0, 0, 0⟩, []⟩,
      hist1.set history_id ⟨"failed", 0, 0, 0, 0, true⟩, false⟩
  else if env.source_exists = false then
    ⟨⟨target_files, update_file_states [] db, ⟨0, 0, 0, 0, 0⟩, []⟩,
      hist1.set history_id ⟨"error", 0, 0, 0, 0, false⟩, true⟩
  else if env.target_ok = false then
    ⟨⟨target_files, update_file_states source_files db, ⟨0, 0, 0, 0, 1⟩, []⟩,
      hist1.set history_id ⟨"error", 0, 0, 0, 0, false⟩, false⟩
  else
    sync_config_local ok source_files target_files db hist delete_mode

/-- The size-stability check shared by `FileMonitor._handle_file_created`
(file_monitor.py lines 406-432) and `FileMonitor._handle_file_modified`
(lines 486-512). `tracked` is the `file_sizes` entry for this
`(config, path)` key, `current_size` the freshly read size. The result is
the new tracking entry and whether the event proceeds to the sync trigger
(Ready): an empty file is immediately Ready and clears the entry; a first
non-zero observation records the size and stops; a changed size updates the
record and stops; an unchanged size clears the entry and is Ready. -/
def observe_size (tracked : Option Nat) (current_size : Nat) :
    Option Nat × Bool :=
  if current_size = 0 then (none, true)
  else
    match tracked with
    | some last_size =>
        if last_size ≠ current_size then (some current_size, false)
        else (none, true)
    | none => (some current_size, false)

/-- Iterate `observe_size` over a sequence of observed sizes for one path,
returning the final tracking entry and the number of events that reached
the Ready trigger. -/
def observe_run (tracked : Option Nat) : List Nat → Option Nat × Nat
  | [] => (tracked, 0)
  | n :: l =>
      let r := observe_size tracked n
      let rest := observe_run r.1 l
      (rest.1, (if r.2 then 1 else 0) + rest.2)

/-- Model of `FileMonitor._handle_file_deleted` (file_monitor.py lines
543-574) restricted to its `file_states` effect: a source deletion event
removes the row for that path. -/
def handle_file_deleted (db : StateDB) (p : Path) : StateDB := eraseKey db p

/-- The scheduler/orchestrator state shared by the interleaved threads
(scheduler.py lines 29-37): the `active_tasks` keys, the task queue, which
config the single worker thread is currently handling (it registers the
task in `active_tasks` for the whole synchronous run, scheduler.py lines
426-458), and the sync runs started directly through
`SyncOrchestrator.trigger_sync` (each such call runs `sync_config` in its
caller's thread, orchestrator.py lines 134-136; the monitor invokes it on a
fresh daemon thread, file_monitor.py line 455). -/
structure SchedState where
  activeTasks : List Nat
  taskQueue : List Nat
  workerBusy : Option Nat
  directRuns : List Nat
  maxConcurrent : Nat
deriving DecidableEq

/-- Model of `SyncScheduler._enqueue_sync_task` (scheduler.py lines
480-505): drop the trigger when the config already has an active task or
the active-task count is at `max_concurrent_tasks`; otherwise append a task
to the queue. -/
def enqueue_sync_task (s : SchedState) (config_id : Nat) : SchedState :=
  if config_id ∈ s.activeTasks then s
  else if s.maxConcurrent ≤ s.activeTasks.length then s
  else { s with taskQueue := s.taskQueue ++ [config_id] }

/-- Model of `SyncScheduler.run_sync_now` (scheduler.py lines 237-276):
the same two drop guards as `_enqueue_sync_task`, then enqueue (the
running/config-existence checks of the early lines are elided). -/
def run_sync_now (s : SchedState) (config_id : Nat) : SchedState :=
  if config_id ∈ s.activeTasks then s
  else if s.maxConcurrent ≤ s.activeTasks.length then s
  else { s with taskQueue := s.taskQueue ++ [config_id] }

/-- The worker thread pops the next task and `_handle_sync_task` registers
it in `active_tasks` (scheduler.py lines 338-350 and 426-431); there is a
single worker, so this happens only when no task is being handled. -/
def handle_sync_task_start (s : SchedState) : SchedState :=
  match s.workerBusy, s.taskQueue with
  | none, c :: rest =>
      { s with
        workerBusy := some c
        taskQueue := rest
        activeTasks := s.activeTasks ++ [c] }
  | _, _ => s

/-- End of `_handle_sync_task` (scheduler.py lines 455-469): the handled
config is removed from `active_tasks` if still present, and the worker
becomes idle. -/
def handle_sync_task_finish (s : SchedState) : SchedState :=
  match s.workerBusy with
  | some c =>
      { s with workerBusy := none, activeTasks := s.activeTasks.erase c }
  | none => s

/-- Model of the timeout reaper `_check_task_timeouts` (scheduler.py lines
358-390) acting on one overdue task: it is force-removed from
`active_tasks` (wall-clock time is abstracted away, so the model allows the
reap at any point; the proved invariants hold a fortiori for the code). -/
def check_task_timeouts (s : SchedState) (config_id : Nat) : SchedState :=
  { s with activeTasks := s.activeTasks.erase config_id }

/-- Start of a direct `SyncOrchestrator.trigger_sync` call (orchestrator.py
lines 134-136): `sync_service.sync_config` begins executing in the caller's
thread with no active-task check whatsoever. -/
def trigger_sync_start (s : SchedState) (config_id : Nat) : SchedState :=
  { s with directRuns := s.directRuns ++ [config_id] }

/-- End of a direct `trigger_sync` call: the in-flight run returns. -/
def trigger_sync_finish (s : SchedState) (config_id : Nat) : SchedState :=
  { s with directRuns := s.directRuns.erase config_id }

/-- The interleaved events of the scheduler tick thread, the worker thread,
the timeout reaper, and direct orchestrator triggers. -/
inductive SchedEvent
  | enqueue (config_id : Nat)
  | runNow (config_id : Nat)
  | workerStart
  | workerFinish
  | reap (config_id : Nat)
  | directStart (config_id : Nat)
  | directFinish (config_id : Nat)
deriving DecidableEq

/-- Interleaving semantics: one event updates the shared state. -/
def sched_step (s : SchedState) : SchedEvent → SchedState
  | .enqueue c => enqueue_sync_task s c
  | .runNow c => run_sync_now s c
  | .workerStart => handle_sync_task_start s
  | .workerFinish => handle_sync_task_finish s
  | .reap c => check_task_timeouts s c
  | .directStart c => trigger_sync_start s c
  | .directFinish c => trigger_sync_finish s c

/-- The scheduler's start state: no tasks, idle worker,
`max_concurrent_tasks = 3` (scheduler.py line 36). -/
def initSched : SchedState := ⟨[], [], none, [], 3⟩

/-- Run a trace of interleaved events from the start state. -/
def sched_run (es : List SchedEvent) : SchedState :=
  es.foldl sched_step initSched

/-- Number of sync runs currently executing for one config: the config's
registered active task (executed by the worker) plus the in-flight direct
`trigger_sync` invocations. -/
def activeRunsFor (config_id : Nat) (s : SchedState) : Nat :=
  s.activeTasks.count config_id + s.directRuns.count config_id

/-- Split a character list on a separator, as Python `str.split` does for a
single-character separator. -/
def splitOnChar (c : Char) : List Char → List (List Char)
  | [] => [[]]
  | x :: xs =>
      match splitOnChar c xs with
      | [] => [[]]
      | g :: gs => if x = c then [] :: g :: gs else (x :: g) :: gs

/-- Parse a non-empty digit string as Python `int` does on the schedule
values this code produces. -/
def parseNatDigits : Nat → List Char → Option Nat
  | acc, [] => some acc
  | acc, c :: cs =>
      if c.isDigit then parseNatDigits (acc * 10 + (c.toNat - 48)) cs
      else none

/-- Parse of one component of a `HH:MM` schedule value. -/
def parseNat : List Char → Option Nat
  | [] => none
  | l => parseNatDigits 0 l

/-- A wall-clock evaluation instant, reduced to the fields
`_check_custom_sync` reads from `datetime.now()`. -/
structure TimeOfDay where
  hour : Nat
  minute : Nat
deriving DecidableEq

/-- Model of `SyncScheduler._check_custom_sync` (scheduler.py lines
522-539): split the stored value on `:`, parse hour and minute (any parse
failure is caught and the tick does nothing), and hand the config to
`_enqueue_sync_task` exactly when the current hour and minute match.
`add_schedule` registers this check to be evaluated once daily (at
`00:00`, scheduler.py lines 166-172). -/
def check_custom_sync (s : SchedState) (config_id : Nat)
    (cron_expression : String) (now : TimeOfDay) : SchedState :=
  match splitOnChar ':' cron_expression.toList with
  | [h, m] =>
      match parseNat h, parseNat m with
      | some hour, some minute =>
          if now.hour = hour ∧ now.minute = minute then
            enqueue_sync_task s config_id
          else s
      | _, _ => s
  | _ => s

/-- The single worker keeps `active_tasks` a sub-singleton: it is empty, or
it holds exactly the config the worker is currently handling. -/
def SchedInv (s : SchedState) : Prop :=
  s.activeTasks = [] ∨ ∃ c, s.workerBusy = some c ∧ s.activeTasks = [c]

theorem lookupKey_cons (p : Path) (e : Path × α) (l : List (Path × α)) :
    lookupKey p (e :: l) = if e.1 = p then some e.2 else lookupKey p l := rfl

theorem eraseKey_cons (q : Path) (e : Path × α) (l : List (Path × α)) :
    eraseKey (e :: l) q = if e.1 = q then eraseKey l q else e :: eraseKey l q := by
  by_cases h : e.1 = q <;> simp [eraseKey, List.filter_cons, h]

theorem lookupKey_append (p : Path) (l₁ l₂ : List (Path × α)) :
    lookupKey p (l₁ ++ l₂) =
      match lookupKey p l₁ with
      | some v => some v
      | none => lookupKey p l₂ := by
  induction l₁ with
  | nil => simp [lookupKey]
  | cons e l ih =>
      by_cases h : e.1 = p <;> simp [lookupKey, h, ih]

theorem lookupKey_eraseKey_self (p : Path) (l : List (Path × α)) :
    lookupKey p (eraseKey l p) = none := by
  induction l with
  | nil => rfl
  | cons e l ih =>
      rw [eraseKey_cons]
      by_cases h : e.1 = p
      · rw [if_pos h, ih]
      · rw [if_neg h, lookupKey_cons, if_neg h, ih]

theorem lookupKey_eraseKey_ne (p q : Path) (l : List (Path × α)) (h : p ≠ q) :
    lookupKey p (eraseKey l q) = lookupKey p l := by
  induction l with
  | nil => rfl
  | cons e l ih =>
      rw [eraseKey_cons, lookupKey_cons]
      by_cases he : e.1 = q
      · have hep : e.1 ≠ p := by rw [he]; exact fun hq => h hq.symm
        rw [if_pos he, if_neg hep, ih]
      · rw [if_neg he, lookupKey_cons, ih]

theorem lookupKey_upsertKey_self (p : Path) (v : α) (l : List (Path × α)) :
    lookupKey p (upsertKey l p v) = some v := by
  simp [upsertKey, lookupKey_append, lookupKey_eraseKey_self, lookupKey]

theorem lookupKey_upsertKey_ne (p q : Path) (v : α) (l : List (Path × α))
    (h : p ≠ q) :
    lookupKey p (upsertKey l q v) = lookupKey p l := by
  have hq : q ≠ p := fun hq => h hq.symm
  rw [upsertKey, lookupKey_append, lookupKey_eraseKey_ne p q l h]
  cases hl : lookupKey p l <;> simp [lookupKey, hq]

theorem lookupKey_eq_none_iff (p : Path) (l : List (Path × α)) :
    lookupKey p l = none ↔ p ∉ l.map Prod.fst := by
  induction l with
  | nil => simp [lookupKey]
  | cons e l ih =>
      rw [lookupKey_cons, List.map_cons]
      by_cases h : e.1 = p
      · rw [if_pos h]
        constructor
        · intro hc; cases hc
        · intro hc; exact absurd (List.mem_cons_self _ _) (h ▸ hc)
      · have hne : p ≠ e.1 := fun hq => h hq.symm
        rw [if_neg h, ih, List.mem_cons]
        constructor
        · intro hc hor; rcases hor with hor | hor
          · exact hne hor
          · exact hc hor
        · intro hc hmem; exact hc (Or.inr hmem)

theorem lookupKey_of_mem_nodup (p : Path) (m : α) (l : List (Path × α))
    (hnd : (l.map Prod.fst).Nodup) (hm : (p, m) ∈ l) : lookupKey p l = some m := by
  induction l with
  | nil => cases hm
  | cons e l ih =>
      rcases List.mem_cons.mp hm with he | hl
      · rw [← he, lookupKey_cons, if_pos rfl]
      · have hne : e.1 ≠ p := by
          intro hep
          have hpk : p ∈ l.map Prod.fst := List.mem_map.mpr ⟨(p, m), hl, rfl⟩
          rw [List.map_cons, List.nodup_cons] at hnd
          exact hnd.1 (hep ▸ hpk)
        rw [lookupKey_cons, if_neg hne]
        exact ih (by rw [List.map_cons, List.nodup_cons] at hnd; exact hnd.2) hl

theorem keys_get_files_list (t : List (Path × FileMeta)) :
    (get_files_list t).map Prod.fst
      = (t.map Prod.fst).filter (fun p => !hiddenPath p) := by
  induction t with
  | nil => rfl
  | cons e t ih =>
      by_cases h : hiddenPath e.1 <;>
        simp [get_files_list, List.filter_cons, h, ih] <;>
        simp [get_files_list] at ih <;> exact ih

theorem lookupKey_get_files_list_hidden (p : Path) (t : List (Path × FileMeta))
    (h : hiddenPath p = true) : lookupKey p (get_files_list t) = none := by
  rw [lookupKey_eq_none_iff, keys_get_files_list]
  intro hmem
  rcases List.mem_filter.mp hmem with ⟨_, hkeep⟩
  rw [h] at hkeep
  exact absurd hkeep (by decide)

theorem set_append_length (l : List α) (x y : α) :
    (l ++ [x]).set l.length y = l ++ [y] := by
  induction l with
  | nil => rfl
  | cons a l ih => simp [List.set, ih]

theorem get?_append_length (l : List α) (x : α) :
    (l ++ [x]).get? l.length = some x := by
  induction l with
  | nil => rfl
  | cons a l ih => simp [ih]

/-- Case analysis of one source-loop iteration: either the iteration leaves
target, db and operation log untouched (failed copy, or skip), or it
performs a successful copy/update: it upserts the destination entry, then
upserts the `file_states` row, then appends the operation record. -/
theorem sync_source_file_cases (ok : Path → Bool) (tf : Listing)
    (st : EngineSt) (e : Path × FileMeta) :
    ((sync_source_file ok tf st e).target = st.target ∧
      (sync_source_file ok tf st e).db = st.db ∧
      (sync_source_file ok tf st e).ops = st.ops)
    ∨ ∃ ty, (ty = "copied" ∨ ty = "updated") ∧
        (sync_source_file ok tf st e).target = upsertKey st.target e.1 e.2 ∧
        (sync_source_file ok tf st e).db
          = upsertKey st.db e.1
              ⟨some (calculate_file_hash e.2), e.2.mtime, "synced"⟩ ∧
        (sync_source_file ok tf st e).ops = st.ops ++ [⟨ty, e.1⟩] := by
  unfold sync_source_file update_file_state_in_db
  cases lookupKey e.1 tf with
  | none =>
      cases h : ok e.1
      · simp [h]
      · exact Or.inr ⟨"copied", Or.inl rfl, by simp [h]⟩
  | some t =>
      by_cases hu : need_update e.2 t st.db e.1
      · cases h : ok e.1
        · simp [hu, h]
        · exact Or.inr ⟨"updated", Or.inr rfl, by simp [hu, h]⟩
      · simp [hu]

/-- Every source-loop iteration settles its file into exactly one of the
copied/updated/skipped/errors counters, and never touches `deleted`. -/
theorem sync_source_file_stats (ok : Path → Bool) (tf : Listing)
    (st : EngineSt) (e : Path × FileMeta) :
    ((sync_source_file ok tf st e).stats.copied
        + (sync_source_file ok tf st e).stats.updated
        + (sync_source_file ok tf st e).stats.skipped
        + (sync_source_file ok tf st e).stats.errors
      = st.stats.copied + st.stats.updated + st.stats.skipped
        + st.stats.errors + 1) ∧
    (sync_source_file ok tf st e).stats.deleted = st.stats.deleted := by
  unfold sync_source_file
  cases lookupKey e.1 tf with
  | none => cases h : ok e.1 <;> simp [h] <;> omega
  | some t =>
      by_cases hu : need_update e.2 t st.db e.1
      · cases h : ok e.1 <;> simp [hu, h] <;> omega
      · simp [hu]; omega

/-- Case analysis of one delete-loop iteration: either it leaves target, db
and log untouched, or the entry is absent from the source, tracked in
`synced_files`, and the successful delete erases the destination entry,
erases the `file_states` row, and appends the operation record. -/
theorem delete_target_file_cases (ok : Path → Bool) (sf : Listing)
    (sy : List Path) (st : EngineSt) (e : Path × FileMeta) :
    ((delete_target_file ok sf sy st e).target = st.target ∧
      (delete_target_file ok sf sy st e).db = st.db ∧
      (delete_target_file ok sf sy st e).ops = st.ops)
    ∨ (containsKey e.1 sf = false ∧ e.1 ∈ sy ∧
        (delete_target_file ok sf sy st e).target = eraseKey st.target e.1 ∧
        (delete_target_file ok sf sy st e).db = eraseKey st.db e.1 ∧
        (delete_target_file ok sf sy st e).ops
          = st.ops ++ [⟨"deleted", e.1⟩]) := by
  unfold delete_target_file
  by_cases hs : containsKey e.1 sf
  · simp [hs]
  · by_cases hy : e.1 ∈ sy
    · cases h : ok e.1
      · simp [hs, hy, h]
      · exact Or.inr ⟨by simpa using hs, hy, by simp [hs, hy, h]⟩
    · simp [hs, hy]

/-- Every delete-loop iteration adds one to `deleted + errors` exactly for
the entries it attempts to delete (absent from source and tracked), and
never touches the source-loop counters. -/
theorem delete_target_file_stats (ok : Path → Bool) (sf : Listing)
    (sy : List Path) (st : EngineSt) (e : Path × FileMeta) :
    ((delete_target_file ok sf sy st e).stats.deleted
        + (delete_target_file ok sf sy st e).stats.errors
      = st.stats.deleted + st.stats.errors
        + (if containsKey e.1 sf = false ∧ e.1 ∈ sy then 1 else 0)) ∧
    (delete_target_file ok sf sy st e).stats.copied = st.stats.copied ∧
    (delete_target_file ok sf sy st e).stats.updated = st.stats.updated ∧
    (delete_target_file ok sf sy st e).stats.skipped = st.stats.skipped := by
  unfold delete_target_file
  by_cases hs : containsKey e.1 sf
  · simp [hs]
  · by_cases hy : e.1 ∈ sy
    · cases h : ok e.1 <;> simp [hs, hy, h] <;> omega
    · simp [hs, hy]

/-- The source loop does not touch destination entries or `file_states`
rows at paths it does not iterate over. -/
theorem fold_source_off (ok : Path → Bool) (tf : Listing) (p : Path) :
    ∀ (l : Listing) (st : EngineSt), p ∉ l.map Prod.fst →
      lookupKey p (l.foldl (sync_source_file ok tf) st).target
          = lookupKey p st.target ∧
      lookupKey p (l.foldl (sync_source_file ok tf) st).db
          = lookupKey p st.db := by
  intro l
  induction l with
  | nil => intro st _; exact ⟨rfl, rfl⟩
  | cons e l ih =>
      intro st hp
      rw [List.map_cons, List.mem_cons] at hp
      push_neg at hp
      obtain ⟨hpe, hpl⟩ := hp
      rw [List.foldl_cons]
      obtain ⟨iht, ihd⟩ := ih (sync_source_file ok tf st e) hpl
      rw [iht, ihd]
      rcases sync_source_file_cases ok tf st e with ⟨ht, hd, _⟩ | ⟨ty, _, ht, hd, _⟩
      · rw [ht, hd]; exact ⟨rfl, rfl⟩
      · rw [ht, hd, lookupKey_upsertKey_ne p e.1 _ _ hpe,
          lookupKey_upsertKey_ne p e.1 _ _ hpe]
        exact ⟨rfl, rfl⟩

/-- Destination entries present before the source loop are still present
after it (the loop only overwrites or adds entries). -/
theorem fold_source_contains_target (ok : Path → Bool) (tf : Listing) (q : Path) :
    ∀ (l : Listing) (st : EngineSt), containsKey q st.target = true →
      containsKey q (l.foldl (sync_source_file ok tf) st).target = true := by
  intro l
  induction l with
  | nil => intro st h; exact h
  | cons e l ih =>
      intro st h
      rw [List.foldl_cons]
      refine ih _ ?_
      rcases sync_source_file_cases ok tf st e with ⟨ht, _, _⟩ | ⟨ty, _, ht, _, _⟩
      · rw [ht]; exact h
      · rw [ht]
        by_cases hqe : q = e.1
        · rw [containsKey, hqe, lookupKey_upsertKey_self]; rfl
        · rw [containsKey, lookupKey_upsertKey_ne q e.1 _ _ hqe]; exact h

/-- Operation records appended by the source loop are `copied` or
`updated` records. -/
theorem fold_source_ops (ok : Path → Bool) (tf : Listing) :
    ∀ (l : Listing) (st : EngineSt),
      ∀ op ∈ (l.foldl (sync_source_file ok tf) st).ops,
        op ∈ st.ops ∨
          (op.operation_type = "copied" ∨ op.operation_type = "updated") := by
  intro l
  induction l with
  | nil => intro st op hop; exact Or.inl hop
  | cons e l ih =>
      intro st op hop
      rw [List.foldl_cons] at hop
      rcases ih _ op hop with hmem | hty
      · rcases sync_source_file_cases ok tf st e with ⟨_, _, ho⟩ | ⟨ty, hty, _, _, ho⟩
        · rw [ho] at hmem; exact Or.inl hmem
        · rw [ho] at hmem
          rcases List.mem_append.mp hmem with hmem | hmem
          · exact Or.inl hmem
          · rcases List.mem_singleton.mp hmem with rfl
            exact Or.inr (by simpa using hty)
      · exact Or.inr hty

/-- The delete loop leaves alone every path that is still a source file or
holds no `file_states` row at the start of the loop. -/
theorem fold_delete_preserve (ok : Path → Bool) (sf : Listing) (sy : List Path)
    (p : Path) (hp : containsKey p sf = true ∨ p ∉ sy) :
    ∀ (l : Listing) (st : EngineSt),
      lookupKey p (l.foldl (delete_target_file ok sf sy) st).target
          = lookupKey p st.target ∧
      lookupKey p (l.foldl (delete_target_file ok sf sy) st).db
          = lookupKey p st.db := by
  intro l
  induction l with
  | nil => intro st; exact ⟨rfl, rfl⟩
  | cons e l ih =>
      intro st
      rw [List.foldl_cons]
      obtain ⟨iht, ihd⟩ := ih (delete_target_file ok sf sy st e)
      rw [iht, ihd]
      rcases delete_target_file_cases ok sf sy st e with
        ⟨ht, hd, _⟩ | ⟨hsf, hsy, ht, hd, _⟩
      · rw [ht, hd]; exact ⟨rfl, rfl⟩
      · have hpe : p ≠ e.1 := by
          intro hq
          rcases hp with hp | hp
          · rw [hq] at hp; rw [hp] at hsf; cases hsf
          · exact hp (hq ▸ hsy)
        rw [ht, hd, lookupKey_eraseKey_ne p e.1 _ hpe,
          lookupKey_eraseKey_ne p e.1 _ hpe]
        exact ⟨rfl, rfl⟩

/-- Operation records appended by the delete loop are `deleted` records for
paths that are not source files and were tracked in `synced_files`. -/
theorem fold_delete_ops (ok : Path → Bool) (sf : Listing) (sy : List Path) :
    ∀ (l : Listing) (st : EngineSt),
      ∀ op ∈ (l.foldl (delete_target_file ok sf sy) st).ops,
        op ∈ st.ops ∨
          (op.operation_type = "deleted" ∧ containsKey op.file_path sf = false ∧
            op.file_path ∈ sy) := by
  intro l
  induction l with
  | nil => intro st op hop; exact Or.inl hop
  | cons e l ih =>
      intro st op hop
      rw [List.foldl_cons] at hop
      rcases ih _ op hop with hmem | hdel
      · rcases delete_target_file_cases ok sf sy st e with
          ⟨_, _, ho⟩ | ⟨hsf, hsy, _, _, ho⟩
        · rw [ho] at hmem; exact Or.inl hmem
        · rw [ho] at hmem
          rcases List.mem_append.mp hmem with hmem | hmem
          · exact Or.inl hmem
          · rcases List.mem_singleton.mp hmem with rfl
            exact Or.inr ⟨rfl, hsf, hsy⟩
      · exact Or.inr hdel

/-- Unfolding of a `sync_folders` run without the delete pass. -/
theorem sync_folders_false (ok : Path → Bool) (sf tf : Listing) (db : StateDB) :
    sync_folders ok sf tf db false
      = sf.foldl (sync_source_file ok tf) ⟨tf, db, ⟨0, 0, 0, 0, 0⟩, []⟩ := rfl

/-- Unfolding of a `sync_folders` run with the delete pass. -/
theorem sync_folders_true (ok : Path → Bool) (sf tf : Listing) (db : StateDB) :
    sync_folders ok sf tf db true
      = tf.foldl
          (delete_target_file ok sf
            ((sf.foldl (sync_source_file ok tf)
              ⟨tf, db, ⟨0, 0, 0, 0, 0⟩, []⟩).db.map Prod.fst))
          (sf.foldl (sync_source_file ok tf) ⟨tf, db, ⟨0, 0, 0, 0, 0⟩, []⟩) := rfl

/-- A `false` result of `containsKey` is the absence of the key. -/
theorem not_containsKey_iff (p : Path) (l : List (Path × α)) :
    containsKey p l = false ↔ lookupKey p l = none := by
  rw [containsKey]
  cases lookupKey p l <;> simp

/-- C1 (safe delete): a destination entry with no `file_states` row under
this configuration is never deleted by a `sync_folders` run — it is still
present afterwards, it is bit-for-bit untouched when it is not also a
source path, and every `deleted` operation record of the run names a path
that had a `file_states` row when the run started. -/
theorem safe_delete_untracked (ok : Path → Bool)
    (source_files target_files : Listing) (db : StateDB) (delete_mode : Bool)
    (q : Path) (meta : FileMeta)
    (hq : lookupKey q target_files = some meta)
    (hdb : containsKey q db = false) :
    containsKey q (sync_folders ok source_files target_files db delete_mode).target
        = true ∧
    (containsKey q source_files = false →
      lookupKey q (sync_folders ok source_files target_files db delete_mode).target
        = some meta) ∧
    (∀ op ∈ (sync_folders ok source_files target_files db delete_mode).ops,
      op.operation_type = "deleted" → containsKey op.file_path db = true) := by
  have hdbn : lookupKey q db = none := (not_containsKey_iff q db).mp hdb
  set st0 : EngineSt := ⟨target_files, db, ⟨0, 0, 0, 0, 0⟩, []⟩ with hst0
  set st1 := source_files.foldl (sync_source_file ok target_files) st0 with hst1
  have hq0 : containsKey q st0.target = true := by
    show (lookupKey q target_files).isSome = true
    rw [hq]; rfl
  have hpres1 : containsKey q st1.target = true :=
    fold_source_contains_target ok target_files q source_files st0 hq0
  have hoff : containsKey q source_files = false →
      lookupKey q st1.target = some meta ∧ lookupKey q st1.db = none := by
    intro hqs
    have hqk : q ∉ source_files.map Prod.fst :=
      (lookupKey_eq_none_iff q source_files).mp ((not_containsKey_iff _ _).mp hqs)
    obtain ⟨ht, hd⟩ := fold_source_off ok target_files q source_files st0 hqk
    exact ⟨by rw [ht]; exact hq, by rw [hd]; exact hdbn⟩
  have hops1 : ∀ op ∈ st1.ops, op.operation_type = "deleted" → False := by
    intro op hop hty
    rcases fold_source_ops ok target_files source_files st0 op hop with hmem | hcu
    · cases hmem
    · rcases hcu with hcu | hcu <;> rw [hty] at hcu <;>
        exact absurd hcu (by decide)
  cases delete_mode with
  | false =>
      rw [sync_folders_false, ← hst0, ← hst1]
      refine ⟨hpres1, fun hqs => (hoff hqs).1, fun op hop hty => ?_⟩
      exact absurd hty (fun h => hops1 op hop h)
  | true =>
      rw [sync_folders_true, ← hst0, ← hst1]
      set sy := st1.db.map Prod.fst with hsy
      have hpre : ∀ (hcase : containsKey q source_files = true ∨ q ∉ sy),
          lookupKey q (target_files.foldl
              (delete_target_file ok source_files sy) st1).target
            = lookupKey q st1.target ∧
          lookupKey q (target_files.foldl
              (delete_target_file ok source_files sy) st1).db
            = lookupKey q st1.db := fun hcase =>
        fold_delete_preserve ok source_files sy q hcase target_files st1
      constructor
      · by_cases hqs : containsKey q source_files = true
        · obtain ⟨ht, _⟩ := hpre (Or.inl hqs)
          rw [containsKey, ht]; exact hpres1
        · have hqs' : containsKey q source_files = false :=
            Bool.not_eq_true _ ▸ (by simpa using hqs)
          have hnone := (hoff hqs').2
          have hnot : q ∉ sy := (lookupKey_eq_none_iff q st1.db).mp hnone
          obtain ⟨ht, _⟩ := hpre (Or.inr hnot)
          rw [containsKey, ht, (hoff hqs').1]; rfl
      constructor
      · intro hqs
        have hnone := (hoff hqs).2
        have hnot : q ∉ sy := (lookupKey_eq_none_iff q st1.db).mp hnone
        obtain ⟨ht, _⟩ := hpre (Or.inr hnot)
        rw [ht]; exact (hoff hqs).1
      · intro op hop hty
        rcases fold_delete_ops ok source_files sy target_files st1 op hop with
          hmem | ⟨_, hsf, hmem⟩
        · exact absurd hty (fun h => hops1 op hmem h)
        · have hkey : op.file_path ∉ source_files.map Prod.fst :=
            (lookupKey_eq_none_iff _ _).mp ((not_containsKey_iff _ _).mp hsf)
          obtain ⟨_, hd⟩ := fold_source_off ok target_files op.file_path
            source_files st0 hkey
          have hne : lookupKey op.file_path st1.db ≠ none := by
            rw [Ne, lookupKey_eq_none_iff]
            intro hcontra; exact hcontra hmem
          rw [hd] at hne
          rw [containsKey]
          exact Option.ne_none_iff_isSome.mp hne

theorem safe_delete_untracked_witness :
    (lookupKey ["y.txt"] ([(["y.txt"], (⟨3, 3, 3⟩ : FileMeta))] : Listing)
        = some ⟨3, 3, 3⟩) ∧
    (containsKey ["y.txt"] ([] : StateDB) = false) ∧
    containsKey ["y.txt"]
      (sync_folders (fun _ => true) [] [(["y.txt"], ⟨3, 3, 3⟩)] [] true).target
      = true :=
  ⟨by decide, by decide,
    (safe_delete_untracked (fun _ => true) [] [(["y.txt"], ⟨3, 3, 3⟩)] [] true
      ["y.txt"] ⟨3, 3, 3⟩ (by decide) (by decide)).1⟩

/-- A property preserved by every iteration holds after the whole loop. -/
theorem foldl_inv {σ β : Type} (P : σ → Prop) (f : σ → β → σ)
    (hf : ∀ st b, P st → P (f st b)) :
    ∀ (l : List β) (st : σ), P st → P (l.foldl f st) := by
  intro l
  induction l with
  | nil => intro st h; exact h
  | cons b l ih => intro st h; exact ih _ (hf st b h)

/-- C4 (amended, engine part): within one `sync_folders` run, the
`file_states` row of a path changes only if the run logged a successful
operation for that very path — the row upsert happens in the success branch
of a copy/update and the row removal in the success branch of a delete
(local.py lines 153-157, 177-181, 219-223). -/
theorem file_state_change_has_op (ok : Path → Bool)
    (source_files target_files : Listing) (db : StateDB) (delete_mode : Bool)
    (p : Path)
    (hchg : lookupKey p (sync_folders ok source_files target_files db delete_mode).db
      ≠ lookupKey p db) :
    ∃ op ∈ (sync_folders ok source_files target_files db delete_mode).ops,
      op.file_path = p := by
  set P : EngineSt → Prop := fun st =>
    ∀ q, lookupKey q st.db ≠ lookupKey q db → ∃ op ∈ st.ops, op.file_path = q
    with hP
  have hstep1 : ∀ st e, P st → P (sync_source_file ok target_files st e) := by
    intro st e hst q hq
    rcases sync_source_file_cases ok target_files st e with
      ⟨_, hd, ho⟩ | ⟨ty, _, _, hd, ho⟩
    · rw [hd] at hq; rw [ho]; exact hst q hq
    · by_cases hqe : q = e.1
      · exact ⟨⟨ty, e.1⟩, by rw [ho]; exact List.mem_append_right _ (by simp), hqe.symm⟩
      · rw [hd, lookupKey_upsertKey_ne q e.1 _ _ hqe] at hq
        obtain ⟨op, hop, hfp⟩ := hst q hq
        exact ⟨op, by rw [ho]; exact List.mem_append_left _ hop, hfp⟩
  have hstep2 : ∀ sy st e, P st →
      P (delete_target_file ok source_files sy st e) := by
    intro sy st e hst q hq
    rcases delete_target_file_cases ok source_files sy st e with
      ⟨_, hd, ho⟩ | ⟨_, _, _, hd, ho⟩
    · rw [hd] at hq; rw [ho]; exact hst q hq
    · by_cases hqe : q = e.1
      · exact ⟨⟨"deleted", e.1⟩, by rw [ho]; exact List.mem_append_right _ (by simp),
          hqe.symm⟩
      · rw [hd, lookupKey_eraseKey_ne q e.1 _ hqe] at hq
        obtain ⟨op, hop, hfp⟩ := hst q hq
        exact ⟨op, by rw [ho]; exact List.mem_append_left _ hop, hfp⟩
  have h0 : P ⟨target_files, db, ⟨0, 0, 0, 0, 0⟩, []⟩ := by
    intro q hq; exact absurd rfl hq
  have h1 : P (source_files.foldl (sync_source_file ok target_files)
      ⟨target_files, db, ⟨0, 0, 0, 0, 0⟩, []⟩) :=
    foldl_inv P _ hstep1 source_files _ h0
  cases delete_mode with
  | false => rw [sync_folders_false] at hchg ⊢; exact h1 p hchg
  | true =>
      rw [sync_folders_true] at hchg ⊢
      exact foldl_inv P _ (hstep2 _) target_files _ h1 p hchg

theorem file_state_change_has_op_witness :
    (lookupKey ["a"]
        (sync_folders (fun _ => true) [(["a"], ⟨1, 1, 1⟩)] [] [] true).db
      ≠ lookupKey ["a"] ([] : StateDB)) ∧
    ∃ op ∈ (sync_folders (fun _ => true) [(["a"], ⟨1, 1, 1⟩)] [] [] true).ops,
      op.file_path = ["a"] :=
  ⟨by decide,
    file_state_change_has_op (fun _ => true) [(["a"], ⟨1, 1, 1⟩)] [] [] true
      ["a"] (by decide)⟩

/-- C4 (counterexample to the claim as stated): with a failing copy, the
engine logs no successful operation and counts one error, yet after the
service run a `file_states` row for the failed path exists with status
`synced`, written by `update_file_states` without any successful backend
call. -/
theorem file_state_before_success_cex :
    (sync_config_local (fun _ => false) [(["a"], ⟨1, 1, 1⟩)] [] [] [] true).engine.ops
        = [] ∧
    (sync_config_local (fun _ => false) [(["a"], ⟨1, 1, 1⟩)] [] [] [] true).engine.stats.errors
        = 1 ∧
    lookupKey ["a"]
        (sync_config_local (fun _ => false) [(["a"], ⟨1, 1, 1⟩)] [] [] [] true).engine.db
      = some ⟨some 1, 1, "synced"⟩ := by
  decide

/-- The source loop settles each source file into exactly one of the four
source-side counters and never touches `deleted`. -/
theorem fold_source_stats (ok : Path → Bool) (tf : Listing) :
    ∀ (l : Listing) (st : EngineSt),
      ((l.foldl (sync_source_file ok tf) st).stats.copied
          + (l.foldl (sync_source_file ok tf) st).stats.updated
          + (l.foldl (sync_source_file ok tf) st).stats.skipped
          + (l.foldl (sync_source_file ok tf) st).stats.errors
        = st.stats.copied + st.stats.updated + st.stats.skipped
          + st.stats.errors + l.length) ∧
      (l.foldl (sync_source_file ok tf) st).stats.deleted
        = st.stats.deleted := by
  intro l
  induction l with
  | nil => intro st; exact ⟨rfl, rfl⟩
  | cons e l ih =>
      intro st
      rw [List.foldl_cons]
      obtain ⟨ihsum, ihdel⟩ := ih (sync_source_file ok tf st e)
      obtain ⟨hsum, hdel⟩ := sync_source_file_stats ok tf st e
      constructor
      · rw [ihsum, hsum, List.length_cons]; omega
      · rw [ihdel, hdel]

/-- The delete loop attempts exactly the untracked-filter of the snapshot
and never touches the source-side counters. -/
theorem fold_delete_stats (ok : Path → Bool) (sf : Listing) (sy : List Path) :
    ∀ (l : Listing) (st : EngineSt),
      ((l.foldl (delete_target_file ok sf sy) st).stats.deleted
          + (l.foldl (delete_target_file ok sf sy) st).stats.errors
        = st.stats.deleted + st.stats.errors
          + l.countP (fun e => !containsKey e.1 sf && decide (e.1 ∈ sy))) ∧
      (l.foldl (delete_target_file ok sf sy) st).stats.copied
          = st.stats.copied ∧
      (l.foldl (delete_target_file ok sf sy) st).stats.updated
          = st.stats.updated ∧
      (l.foldl (delete_target_file ok sf sy) st).stats.skipped
          = st.stats.skipped := by
  intro l
  induction l with
  | nil => intro st; exact ⟨by simp, rfl, rfl, rfl⟩
  | cons e l ih =>
      intro st
      rw [List.foldl_cons]
      obtain ⟨ihsum, ihc, ihu, ihs⟩ := ih (delete_target_file ok sf sy st e)
      obtain ⟨hsum, hc, hu, hs⟩ := delete_target_file_stats ok sf sy st e
      refine ⟨?_, by rw [ihc, hc], by rw [ihu, hu], by rw [ihs, hs]⟩
      rw [ihsum, hsum, List.countP_cons]
      have hind : (if containsKey e.1 sf = false ∧ e.1 ∈ sy then 1 else 0)
          = (if (!containsKey e.1 sf && decide (e.1 ∈ sy)) = true then 1 else 0) := by
        by_cases h1 : containsKey e.1 sf <;> by_cases h2 : e.1 ∈ sy <;>
          simp [h1, h2]
      omega

/-- `fold_source_stats` specialized to the engine's start state. -/
theorem fold_source_stats_init (ok : Path → Bool) (tf sf : Listing) (db : StateDB) :
    ((sf.foldl (sync_source_file ok tf) ⟨tf, db, ⟨0, 0, 0, 0, 0⟩, []⟩).stats.copied
        + (sf.foldl (sync_source_file ok tf) ⟨tf, db, ⟨0, 0, 0, 0, 0⟩, []⟩).stats.updated
        + (sf.foldl (sync_source_file ok tf) ⟨tf, db, ⟨0, 0, 0, 0, 0⟩, []⟩).stats.skipped
        + (sf.foldl (sync_source_file ok tf) ⟨tf, db, ⟨0, 0, 0, 0, 0⟩, []⟩).stats.errors
      = sf.length) ∧
    (sf.foldl (sync_source_file ok tf) ⟨tf, db, ⟨0, 0, 0, 0, 0⟩, []⟩).stats.deleted
      = 0 := by
  obtain ⟨h1, h2⟩ := fold_source_stats ok tf sf ⟨tf, db, ⟨0, 0, 0, 0, 0⟩, []⟩
  constructor
  · simpa using h1
  · simpa using h2

theorem countP_congr_mem {β : Type} (p q : β → Bool) :
    ∀ l : List β, (∀ a ∈ l, p a = q a) → l.countP p = l.countP q := by
  intro l
  induction l with
  | nil => intro _; rfl
  | cons b l ih =>
      intro h
      rw [List.countP_cons, List.countP_cons, h b (List.mem_cons_self b l),
        ih (fun a ha => h a (List.mem_cons_of_mem b ha))]

/-- C9 (amended): a failed transfer only increments the error counter — it
aborts nothing and writes no per-file operation record — and the run still
attempts every planned action: the five counters always sum to the number
of source files plus the number of tracked destination extras, for every
failure pattern. -/
theorem continue_on_error_spec (ok : Path → Bool)
    (source_files target_files : Listing) (db : StateDB) (delete_mode : Bool) :
    (∀ (st : EngineSt) (e : Path × FileMeta), ok e.1 = false →
      (lookupKey e.1 target_files = none ∨
        ∃ t, lookupKey e.1 target_files = some t ∧
          need_update e.2 t st.db e.1 = true) →
      sync_source_file ok target_files st e
        = { st with stats := { st.stats with errors := st.stats.errors + 1 } }) ∧
    ((sync_folders ok source_files target_files db delete_mode).stats.copied
        + (sync_folders ok source_files target_files db delete_mode).stats.updated
        + (sync_folders ok source_files target_files db delete_mode).stats.skipped
        + (sync_folders ok source_files target_files db delete_mode).stats.deleted
        + (sync_folders ok source_files target_files db delete_mode).stats.errors
      = source_files.length +
          (if delete_mode then
            target_files.countP
              (fun e => !containsKey e.1 source_files && containsKey e.1 db)
          else 0)) := by
  constructor
  · intro st e hok hcond
    rcases hcond with hnone | ⟨t, hsome, hu⟩
    · simp [sync_source_file, hnone, hok]
    · simp [sync_source_file, hsome, hu, hok]
  · cases delete_mode with
    | false =>
        rw [sync_folders_false]
        obtain ⟨hsum, hdel⟩ := fold_source_stats_init ok target_files source_files db
        simp only [if_neg (by decide : ¬ (false = true))]
        omega
    | true =>
        rw [sync_folders_true]
        obtain ⟨hsum1, hdel1⟩ := fold_source_stats_init ok target_files source_files db
        set st1 := source_files.foldl (sync_source_file ok target_files)
          ⟨target_files, db, ⟨0, 0, 0, 0, 0⟩, []⟩ with hst1
        set sy := st1.db.map Prod.fst with hsy
        obtain ⟨hsum2, hc2, hu2, hs2⟩ := fold_delete_stats ok source_files sy
          target_files st1
        have hcount : target_files.countP
            (fun e => !containsKey e.1 source_files && decide (e.1 ∈ sy))
          = target_files.countP
            (fun e => !containsKey e.1 source_files && containsKey e.1 db) := by
          refine countP_congr_mem _ _ target_files (fun e _ => ?_)
          by_cases h1 : containsKey e.1 source_files = true
          · simp [h1]
          · have hsf : containsKey e.1 source_files = false := by
              revert h1; cases containsKey e.1 source_files <;> simp
            have hkey : e.1 ∉ source_files.map Prod.fst :=
              (lookupKey_eq_none_iff _ _).mp ((not_containsKey_iff _ _).mp hsf)
            obtain ⟨_, hd⟩ := fold_source_off ok target_files e.1 source_files
              ⟨target_files, db, ⟨0, 0, 0, 0, 0⟩, []⟩ hkey
            rw [← hst1] at hd
            have hmem : (e.1 ∈ sy) ↔ containsKey e.1 db = true := by
              constructor
              · intro hmem
                have hne : lookupKey e.1 st1.db ≠ none := by
                  rw [Ne, lookupKey_eq_none_iff]
                  exact fun hc => hc hmem
                rw [hd] at hne
                rw [containsKey]
                exact Option.ne_none_iff_isSome.mp hne
              · intro hc
                have hne : lookupKey e.1 st1.db ≠ none := by
                  rw [hd]
                  intro hn
                  rw [containsKey, hn] at hc
                  cases hc
                rw [Ne, lookupKey_eq_none_iff] at hne
                exact not_not.mp hne
            have hdbeq : decide (e.1 ∈ sy) = containsKey e.1 db := by
              by_cases h2 : e.1 ∈ sy
              · rw [decide_eq_true h2, hmem.mp h2]
              · have hc : containsKey e.1 db = false := by
                  cases hb : containsKey e.1 db
                  · rfl
                  · exact absurd (hmem.mpr hb) h2
                rw [hc, decide_eq_false h2]
            rw [hdbeq]
        rw [if_pos rfl, ← hcount]
        omega

theorem continue_on_error_witness :
    ((fun _ : Path => false) ["b"] = false) ∧
    (lookupKey ["b"] ([] : Listing) = none) ∧
    sync_source_file (fun _ => false) [] ⟨[], [], ⟨0, 0, 0, 0, 0⟩, []⟩
        (["b"], ⟨2, 2, 2⟩)
      = { target := [], db := [], stats := ⟨0, 0, 0, 0, 1⟩, ops := [] } :=
  ⟨rfl, by decide, by
    have h := (continue_on_error_spec (fun _ => false) [] [] [] true).1
      ⟨[], [], ⟨0, 0, 0, 0, 0⟩, []⟩ (["b"], ⟨2, 2, 2⟩) rfl (Or.inl (by decide))
    simpa using h⟩

/-- C9 (counterexample to the claim as stated): a failed transfer is
counted and does not abort the run — the remaining planned actions still
execute — but no per-file operation record is written for it: the run's
operation log mentions every successful path and not the failed one. -/
theorem continue_on_error_cex :
    (sync_folders (fun p => decide (p ≠ ["b"]))
        [(["a"], ⟨1, 1, 1⟩), (["b"], ⟨2, 2, 2⟩), (["c"], ⟨3, 3, 3⟩)]
        [] [] true).stats.errors = 1 ∧
    (sync_folders (fun p => decide (p ≠ ["b"]))
        [(["a"], ⟨1, 1, 1⟩), (["b"], ⟨2, 2, 2⟩), (["c"], ⟨3, 3, 3⟩)]
        [] [] true).stats.copied = 2 ∧
    (sync_folders (fun p => decide (p ≠ ["b"]))
        [(["a"], ⟨1, 1, 1⟩), (["b"], ⟨2, 2, 2⟩), (["c"], ⟨3, 3, 3⟩)]
        [] [] true).ops
      = [⟨"copied", ["a"]⟩, ⟨"copied", ["c"]⟩] ∧
    containsKey ["c"] (sync_folders (fun p => decide (p ≠ ["b"]))
        [(["a"], ⟨1, 1, 1⟩), (["b"], ⟨2, 2, 2⟩), (["c"], ⟨3, 3, 3⟩)]
        [] [] true).target = true := by
  decide

/-- What one `SyncService.sync_config` local run computes, written out:
the engine result with the post-run `update_file_states` applied to the
rows, exactly one appended history row — finalized by the engine as
`success`/`error` with the counters (the service's own `completed/failed`
update is skipped because the row is no longer `running`) — and the
success flag. -/
theorem sync_config_local_eq (ok : Path → Bool)
    (source_files target_files : Listing) (db : StateDB)
    (hist : List HistRow) (delete_mode : Bool) :
    sync_config_local ok source_files target_files db hist delete_mode
      = ⟨⟨(sync_folders ok source_files target_files db delete_mode).target,
          update_file_states source_files
            (sync_folders ok source_files target_files db delete_mode).db,
          (sync_folders ok source_files target_files db delete_mode).stats,
          (sync_folders ok source_files target_files db delete_mode).ops⟩,
        hist ++ [⟨if (sync_folders ok source_files target_files db delete_mode).stats.errors = 0
            then "success" else "error",
          (sync_folders ok source_files target_files db delete_mode).stats.copied,
          (sync_folders ok source_files target_files db delete_mode).stats.updated,
          (sync_folders ok source_files target_files db delete_mode).stats.deleted,
          (sync_folders ok source_files target_files db delete_mode).stats.errors,
          true⟩],
        decide ((sync_folders ok source_files target_files db delete_mode).stats.errors = 0)⟩ := by
  simp only [sync_config_local]
  rw [set_append_length, get?_append_length]
  by_cases h : (sync_folders ok source_files target_files db delete_mode).stats.errors = 0 <;>
    simp [h]

theorem take_append_self (l l' : List α) : (l ++ l').take l.length = l := by
  induction l with
  | nil => rfl
  | cons a l ih => simp [ih]

/-- C7 (amended): every local-target service run appends exactly one
history row, leaves earlier rows untouched, and always moves the row out of
`running` — but the finalization is not uniform. On the main path the row
gets the counters, an end time, and status `success` iff the error counter
is zero, else `error` (never `completed`/`failed`), and the success flag
matches. A run without a configured target path is finalized `failed` with
an end time and zero counters. A run whose source folder is missing is
finalized `error` with no end time, its error counter is zero, and the run
still reports success. A run whose destination folder cannot be created is
finalized `error` with no end time and zero row counters despite its one
counted error. -/
theorem run_finalization (env : RunEnv) (ok : Path → Bool)
    (source_files target_files : Listing) (db : StateDB)
    (hist : List HistRow) (delete_mode : Bool) :
    (sync_config env ok source_files target_files db hist delete_mode).hist.length
        = hist.length + 1 ∧
    (sync_config env ok source_files target_files db hist delete_mode).hist.take
        hist.length = hist ∧
    ((sync_config env ok source_files target_files db hist delete_mode).hist.get?
        hist.length).map HistRow.status ≠ some "running" ∧
    (env.target_configured = false →
      (sync_config env ok source_files target_files db hist delete_mode).hist.get?
          hist.length = some ⟨"failed", 0, 0, 0, 0, true⟩ ∧
      (sync_config env ok source_files target_files db hist delete_mode).success
        = false) ∧
    (env.target_configured = true → env.source_exists = false →
      (sync_config env ok source_files target_files db hist delete_mode).hist.get?
          hist.length = some ⟨"error", 0, 0, 0, 0, false⟩ ∧
      (sync_config env ok source_files target_files db hist delete_mode).engine.stats.errors
        = 0 ∧
      (sync_config env ok source_files target_files db hist delete_mode).success
        = true) ∧
    (env.target_configured = true → env.source_exists = true →
      env.target_ok = false →
      (sync_config env ok source_files target_files db hist delete_mode).hist.get?
          hist.length = some ⟨"error", 0, 0, 0, 0, false⟩ ∧
      (sync_config env ok source_files target_files db hist delete_mode).engine.stats.errors
        = 1 ∧
      (sync_config env ok source_files target_files db hist delete_mode).success
        = false) ∧
    (env.target_configured = true → env.source_exists = true →
      env.target_ok = true →
      (sync_config env ok source_files target_files db hist delete_mode).hist.get?
          hist.length
        = some ⟨if (sync_folders ok source_files target_files db delete_mode).stats.errors = 0
              then "success" else "error",
            (sync_folders ok source_files target_files db delete_mode).stats.copied,
            (sync_folders ok source_files target_files db delete_mode).stats.updated,
            (sync_folders ok source_files target_files db delete_mode).stats.deleted,
            (sync_folders ok source_files target_files db delete_mode).stats.errors,
            true⟩ ∧
      ((sync_config env ok source_files target_files db hist delete_mode).success
          = true
        ↔ (sync_folders ok source_files target_files db delete_mode).stats.errors
          = 0)) := by
  obtain ⟨tc, se, tok⟩ := env
  cases tc with
  | false =>
      have h : sync_config ⟨false, se, tok⟩ ok source_files target_files db hist
          delete_mode
          = ⟨⟨target_files, db, ⟨0, 0, 0, 0, 0⟩, []⟩,
              hist ++ [⟨"failed", 0, 0, 0, 0, true⟩], false⟩ := by
        simp [sync_config, set_append_length]
      rw [h]
      refine ⟨by simp, take_append_self hist _, ?_,
        fun _ => ⟨get?_append_length hist _, rfl⟩, ?_, ?_, ?_⟩
      · rw [get?_append_length]; decide
      · intro hc; simp at hc
      · intro hc; simp at hc
      · intro hc; simp at hc
  | true =>
    cases se with
    | false =>
        have h : sync_config ⟨true, false, tok⟩ ok source_files target_files db
            hist delete_mode
            = ⟨⟨target_files, update_file_states [] db, ⟨0, 0, 0, 0, 0⟩, []⟩,
                hist ++ [⟨"error", 0, 0, 0, 0, false⟩], true⟩ := by
          simp [sync_config, set_append_length]
        rw [h]
        refine ⟨by simp, take_append_self hist _, ?_, ?_,
          fun _ _ => ⟨get?_append_length hist _, rfl, rfl⟩, ?_, ?_⟩
        · rw [get?_append_length]; decide
        · intro hc; simp at hc
        · intro _ hc; simp at hc
        · intro _ hc; simp at hc
    | true =>
      cases tok with
      | false =>
          have h : sync_config ⟨true, true, false⟩ ok source_files target_files
              db hist delete_mode
              = ⟨⟨target_files, update_file_states source_files db,
                    ⟨0, 0, 0, 0, 1⟩, []⟩,
                  hist ++ [⟨"error", 0, 0, 0, 0, false⟩], false⟩ := by
            simp [sync_config, set_append_length]
          rw [h]
          refine ⟨by simp, take_append_self hist _, ?_, ?_, ?_,
            fun _ _ _ => ⟨get?_append_length hist _, rfl, rfl⟩, ?_⟩
          · rw [get?_append_length]; decide
          · intro hc; simp at hc
          · intro _ hc; simp at hc
          · intro _ _ hc; simp at hc
      | true =>
          have h : sync_config ⟨true, true, true⟩ ok source_files target_files
              db hist delete_mode
              = sync_config_local ok source_files target_files db hist
                  delete_mode := by
            simp [sync_config]
          rw [h, sync_config_local_eq]
          refine ⟨by simp, take_append_self hist _, ?_, ?_, ?_, ?_,
            fun _ _ _ => ⟨get?_append_length hist _, ?_⟩⟩
          · rw [get?_append_length]
            simp only [Option.map_some']
            intro hc
            have hst := Option.some.inj hc
            by_cases herr : (sync_folders ok source_files target_files db
                delete_mode).stats.errors = 0
            · rw [if_pos herr] at hst
              exact absurd hst (by decide)
            · rw [if_neg herr] at hst
              exact absurd hst (by decide)
          · intro hc; simp at hc
          · intro _ hc; simp at hc
          · intro _ _ hc; simp at hc
          · constructor
            · exact of_decide_eq_true
            · intro h0; exact decide_eq_true h0

theorem schedInv_step :
    ∀ (s : SchedState) (e : SchedEvent), SchedInv s → SchedInv (sched_step s e) := by
  rintro ⟨a, q, w, d, m⟩ e h
  cases e with
  | enqueue c =>
      dsimp [sched_step, enqueue_sync_task]
      split_ifs <;> exact h
  | runNow c =>
      dsimp [sched_step, run_sync_now]
      split_ifs <;> exact h
  | workerStart =>
      dsimp [sched_step, handle_sync_task_start]
      cases w with
      | none =>
          cases q with
          | nil => exact h
          | cons c rest =>
              rcases h with h | ⟨c', hw, _⟩
              · dsimp at h ⊢
                exact Or.inr ⟨c, rfl, by rw [h]; rfl⟩
              · cases hw
      | some c => exact h
  | workerFinish =>
      dsimp [sched_step, handle_sync_task_finish]
      cases w with
      | none => exact h
      | some c =>
          rcases h with h | ⟨c', hw, ha⟩
          · dsimp at h ⊢
            exact Or.inl (by rw [h]; rfl)
          · dsimp at hw ha ⊢
            have hcc : c' = c := (Option.some.inj hw).symm
            subst hcc
            exact Or.inl (by rw [ha]; simp)
  | reap c =>
      dsimp [sched_step, check_task_timeouts]
      rcases h with h | ⟨c', hw, ha⟩
      · dsimp at h ⊢
        exact Or.inl (by rw [h]; rfl)
      · dsimp at hw ha ⊢
        by_cases hce : c' = c
        · subst hce
          exact Or.inl (by rw [ha]; simp)
        · refine Or.inr ⟨c', hw, ?_⟩
          rw [ha, List.erase_cons]
          simp [hce]
  | directStart c => exact h
  | directFinish c => exact h

theorem sched_run_inv (es : List SchedEvent) : SchedInv (sched_run es) :=
  foldl_inv SchedInv sched_step (fun st b hst => schedInv_step st b hst) es
    initSched (Or.inl rfl)

/-- C5 (concurrency bound): over every interleaving of scheduler ticks,
manual requests, worker steps, timeout reaps and direct triggers, the
active-task set never holds more than `max_concurrent_tasks = 3` entries;
and whenever the active-task count is at `max_concurrent_tasks`, a
scheduled or manual enqueue attempt is dropped outright — the state,
including the task queue, is unchanged. -/
theorem max_concurrent_bound :
    (∀ es : List SchedEvent, (sched_run es).activeTasks.length ≤ 3) ∧
    (∀ (s : SchedState) (c : Nat), s.maxConcurrent ≤ s.activeTasks.length →
      enqueue_sync_task s c = s ∧ run_sync_now s c = s) := by
  constructor
  · intro es
    rcases sched_run_inv es with h | ⟨c, _, h⟩ <;> rw [h] <;> simp
  · intro s c h
    have he : enqueue_sync_task s c = s := by
      unfold enqueue_sync_task
      by_cases h1 : c ∈ s.activeTasks <;> simp [h1, h]
    have hr : run_sync_now s c = s := by
      unfold run_sync_now
      by_cases h1 : c ∈ s.activeTasks <;> simp [h1, h]
    exact ⟨he, hr⟩

theorem max_concurrent_bound_witness :
    ((⟨[1, 2, 3], [], none, [], 3⟩ : SchedState).maxConcurrent
        ≤ (⟨[1, 2, 3], [], none, [], 3⟩ : SchedState).activeTasks.length) ∧
    enqueue_sync_task ⟨[1, 2, 3], [], none, [], 3⟩ 4
      = ⟨[1, 2, 3], [], none, [], 3⟩ :=
  ⟨by decide,
    (max_concurrent_bound.2 ⟨[1, 2, 3], [], none, [], 3⟩ 4 (by decide)).1⟩

/-- C2 (counterexample to the claim as stated): two direct
`Orchestrator.trigger_sync` calls for the same config — exactly what two
monitor events produce — yield two concurrently active sync runs for that
config; the second trigger is not a no-op. -/
theorem per_config_exclusion_cex :
    activeRunsFor 1
        (sched_run [SchedEvent.directStart 1, SchedEvent.directStart 1]) = 2 ∧
    sched_run [SchedEvent.directStart 1, SchedEvent.directStart 1]
      ≠ sched_run [SchedEvent.directStart 1] := by
  decide

/-- C2 (amended): per-config mutual exclusion holds for the
scheduler-routed triggers only — a scheduled tick or `run_sync_now` for a
config with an active task is dropped, leaving the state (queue included)
unchanged. -/
theorem per_config_exclusion_scheduler (s : SchedState) (c : Nat)
    (h : c ∈ s.activeTasks) :
    enqueue_sync_task s c = s ∧ run_sync_now s c = s := by
  unfold enqueue_sync_task run_sync_now
  simp [h]

theorem per_config_exclusion_scheduler_witness :
    ((1 : Nat) ∈ (⟨[1], [], some 1, [], 3⟩ : SchedState).activeTasks) ∧
    enqueue_sync_task ⟨[1], [], some 1, [], 3⟩ 1 = ⟨[1], [], some 1, [], 3⟩ :=
  ⟨by decide, (per_config_exclusion_scheduler ⟨[1], [], some 1, [], 3⟩ 1 (by decide)).1⟩

theorem observe_run_append (t : Option Nat) (l₁ l₂ : List Nat) :
    observe_run t (l₁ ++ l₂)
      = ((observe_run (observe_run t l₁).1 l₂).1,
          (observe_run t l₁).2 + (observe_run (observe_run t l₁).1 l₂).2) := by
  induction l₁ generalizing t with
  | nil => simp [observe_run]
  | cons n l ih => simp [observe_run, ih, Nat.add_assoc]

/-- While a file's observed sizes are strictly growing, no event triggers
and the tracking entry follows the last observed size. -/
theorem observe_run_growing :
    ∀ (l : List Nat) (a : Nat) (t : Option Nat), 0 < a → (∀ x ∈ l, 0 < x) →
      List.Chain' (· < ·) (a :: l) → (∀ v, t = some v → v < a) →
      observe_run t (a :: l)
        = (some ((a :: l).getLast (List.cons_ne_nil a l)), 0) := by
  intro l
  induction l with
  | nil =>
      intro a t ha _ _ ht
      have ha' : ¬ a = 0 := Nat.pos_iff_ne_zero.mp ha
      cases t with
      | none => simp [observe_run, observe_size, ha']
      | some v =>
          have hv : v < a := ht v rfl
          have hv' : v ≠ a := Nat.ne_of_lt hv
          simp [observe_run, observe_size, ha', hv']
  | cons b l ih =>
      intro a t ha hl hch ht
      have hb : 0 < b := hl b (List.mem_cons_self b l)
      have hab : a < b := (List.chain'_cons.mp hch).1
      have ha' : ¬ a = 0 := Nat.pos_iff_ne_zero.mp ha
      have hstep : observe_size t a = (some a, false) := by
        cases t with
        | none => simp [observe_size, ha']
        | some v =>
            have hv : v < a := ht v rfl
            simp [observe_size, ha', Nat.ne_of_lt hv]
      have hrest := ih b (some a) hb (fun x hx => hl x (List.mem_cons_of_mem b hx))
        (List.chain'_cons.mp hch).2
        (fun v hv => (Option.some.inj hv) ▸ hab)
      show (let r := observe_size t a
            let rest := observe_run r.1 (b :: l)
            ((rest.1, (if r.2 then 1 else 0) + rest.2)) )
          = (some ((a :: b :: l).getLast (List.cons_ne_nil a (b :: l))), 0)
      rw [hstep]
      dsimp
      rw [hrest]
      simp

/-- C6 (size-stability state machine): a create/modify event reaches the
Ready trigger iff the current size is 0 or the recorded observed size
equals the current one; a first non-zero observation only records the
size; a differing observation only updates the record; and a file whose
sizes grow strictly across its events never triggers until a stable
repeat arrives, which triggers exactly once. -/
theorem size_stability_spec :
    (∀ (tracked : Option Nat) (n : Nat),
      ((observe_size tracked n).2 = true ↔ (n = 0 ∨ tracked = some n))) ∧
    (∀ n : Nat, n ≠ 0 → observe_size none n = (some n, false)) ∧
    (∀ m n : Nat, n ≠ 0 → m ≠ n → observe_size (some m) n = (some n, false)) ∧
    (∀ (a : Nat) (l : List Nat), 0 < a → (∀ x ∈ l, 0 < x) →
      List.Chain' (· < ·) (a :: l) →
      (observe_run none (a :: l)).2 = 0 ∧
      (observe_run none
        ((a :: l) ++ [(a :: l).getLast (List.cons_ne_nil a l)])).2 = 1) := by
  refine ⟨?_, ?_, ?_, ?_⟩
  · intro tracked n
    by_cases h0 : n = 0
    · simp [observe_size, h0]
    · cases tracked with
      | none => simp [observe_size, h0]
      | some m =>
          by_cases hm : m = n
          · subst hm; simp [observe_size, h0]
          · simp [observe_size, h0, hm]
  · intro n h0; simp [observe_size, h0]
  · intro m n h0 hm; simp [observe_size, h0, hm]
  · intro a l ha hl hch
    have hg := observe_run_growing l a none ha hl hch (fun v hv => by cases hv)
    refine ⟨by rw [hg], ?_⟩
    rw [observe_run_append, hg]
    have hlast : 0 < (a :: l).getLast (List.cons_ne_nil a l) := by
      have hmem := List.getLast_mem (List.cons_ne_nil a l)
      rcases List.mem_cons.mp hmem with h | h
      · rw [h]; exact ha
      · exact hl _ h
    have hlast' : ¬ (a :: l).getLast (List.cons_ne_nil a l) = 0 :=
      Nat.pos_iff_ne_zero.mp hlast
    simp [observe_run, observe_size, hlast']

theorem size_stability_witness :
    ((2 : Nat) ≠ 0 ∧ observe_size none 2 = (some 2, false)) ∧
    ((0 : Nat) < 3 ∧ (∀ x ∈ [5], 0 < x) ∧ List.Chain' (· < ·) [3, 5] ∧
      (observe_run none [3, 5]).2 = 0 ∧
      (observe_run none ([3, 5] ++ [5])).2 = 1) :=
  ⟨⟨by decide, size_stability_spec.2.1 2 (by decide)⟩,
    ⟨by decide, by decide,
      List.Chain.cons (by decide) List.Chain.nil,
      (size_stability_spec.2.2.2 3 [5] (by decide) (by decide)
        (List.Chain.cons (by decide) List.Chain.nil)).1,
      (size_stability_spec.2.2.2 3 [5] (by decide) (by decide)
        (List.Chain.cons (by decide) List.Chain.nil)).2⟩⟩

/-- C8 (custom schedule): for a `custom` schedule whose stored value parses
as `HH:MM`, an evaluation of `_check_custom_sync` hands the config to
`_enqueue_sync_task` exactly when the evaluation happens in the minute
`HH:MM` (and otherwise changes nothing — a missed minute is never made up);
when the minute matches and the scheduler's guards pass, the task really is
enqueued. -/
theorem custom_schedule_spec (s : SchedState) (config_id : Nat) (expr : String)
    (now : TimeOfDay) (hs ms : List Char) (hour minute : Nat)
    (h1 : splitOnChar ':' expr.toList = [hs, ms])
    (h2 : parseNat hs = some hour) (h3 : parseNat ms = some minute) :
    (check_custom_sync s config_id expr now
      = if now.hour = hour ∧ now.minute = minute
          then enqueue_sync_task s config_id else s) ∧
    (config_id ∉ s.activeTasks → s.activeTasks.length < s.maxConcurrent →
      enqueue_sync_task s config_id
        = { s with taskQueue := s.taskQueue ++ [config_id] }) := by
  constructor
  · unfold check_custom_sync
    rw [h1]
    dsimp
    rw [h2, h3]
  · intro hmem hlen
    unfold enqueue_sync_task
    rw [if_neg hmem, if_neg (Nat.not_le.mpr hlen)]

theorem custom_schedule_witness :
    (splitOnChar ':' ("10:30".toList) = [['1', '0'], ['3', '0']]) ∧
    (parseNat ['1', '0'] = some 10) ∧ (parseNat ['3', '0'] = some 30) ∧
    check_custom_sync initSched 7 "10:30" ⟨10, 30⟩
      = (if (10 : Nat) = 10 ∧ (30 : Nat) = 30
          then enqueue_sync_task initSched 7 else initSched) :=
  ⟨by decide, by decide, by decide,
    (custom_schedule_spec initSched 7 "10:30" ⟨10, 30⟩ ['1', '0'] ['3', '0']
      10 30 (by decide) (by decide) (by decide)).1⟩

theorem run_finalization_witness :
    ((⟨true, false, true⟩ : RunEnv).target_configured = true) ∧
    ((⟨true, false, true⟩ : RunEnv).source_exists = false) ∧
    ((sync_config ⟨true, false, true⟩ (fun _ => true)
        [(["x.txt"], ⟨10, 5, 7⟩)] [] [] [] true).hist.get? 0
      = some ⟨"error", 0, 0, 0, 0, false⟩ ∧
      (sync_config ⟨true, false, true⟩ (fun _ => true)
        [(["x.txt"], ⟨10, 5, 7⟩)] [] [] [] true).engine.stats.errors = 0 ∧
      (sync_config ⟨true, false, true⟩ (fun _ => true)
        [(["x.txt"], ⟨10, 5, 7⟩)] [] [] [] true).success = true) :=
  ⟨rfl, rfl,
    (run_finalization ⟨true, false, true⟩ (fun _ => true)
      [(["x.txt"], ⟨10, 5, 7⟩)] [] [] [] true).2.2.2.2.1 rfl rfl⟩

/-- C7 (counterexample to the claim as stated): an error-free local run is
finalized with status `success`, not `completed`. -/
theorem run_finalization_cex :
    (sync_config_local (fun _ => true) [(["x.txt"], ⟨10, 5, 7⟩)] [] [] [] true).engine.stats.errors
        = 0 ∧
    (sync_config_local (fun _ => true) [(["x.txt"], ⟨10, 5, 7⟩)] [] [] [] true).hist.map
        HistRow.status = ["success"] ∧
    ("success" : String) ≠ "completed" := by
  decide

/-- The upsert pass of `update_file_states` leaves non-source paths
alone. -/
theorem fold_upsert_off :
    ∀ (l : Listing) (db : StateDB) (p : Path), p ∉ l.map Prod.fst →
      lookupKey p (l.foldl
          (fun d e => update_file_state_in_db d e.1 e.2 "synced") db)
        = lookupKey p db := by
  intro l
  induction l with
  | nil => intro db p _; rfl
  | cons e l ih =>
      intro db p hp
      rw [List.map_cons, List.mem_cons] at hp
      push_neg at hp
      rw [List.foldl_cons, ih _ p hp.2, update_file_state_in_db,
        lookupKey_upsertKey_ne p e.1 _ _ hp.1]

/-- After the upsert pass of `update_file_states`, every source path holds
its fresh `synced` row and every other path keeps its old row. -/
theorem fold_upsert_lookup :
    ∀ (sf : Listing), (sf.map Prod.fst).Nodup →
      ∀ (db : StateDB) (p : Path),
        lookupKey p (sf.foldl
            (fun d e => update_file_state_in_db d e.1 e.2 "synced") db)
          = match lookupKey p sf with
            | some m => some ⟨some (calculate_file_hash m), m.mtime, "synced"⟩
            | none => lookupKey p db := by
  intro sf
  induction sf with
  | nil => intro _ db p; rfl
  | cons e l ih =>
      intro hnd db p
      rw [List.map_cons, List.nodup_cons] at hnd
      rw [List.foldl_cons, lookupKey_cons]
      by_cases hep : e.1 = p
      · have hpl : p ∉ l.map Prod.fst := hep ▸ hnd.1
        rw [fold_upsert_off l _ p hpl, if_pos hep, update_file_state_in_db, hep,
          lookupKey_upsertKey_self]
      · rw [ih hnd.2 _ p, if_neg hep]
        cases lookupKey p l with
        | some m => rfl
        | none =>
            dsimp
            rw [update_file_state_in_db,
              lookupKey_upsertKey_ne p e.1 _ _ (fun hq => hep hq.symm)]

/-- The deletion pass of `update_file_states` leaves source paths alone. -/
theorem fold_del_keep_src (sf : Listing) :
    ∀ (keys : List Path) (d : StateDB) (p : Path), containsKey p sf = true →
      lookupKey p (keys.foldl
          (fun d q => if containsKey q sf then d else eraseKey d q) d)
        = lookupKey p d := by
  intro keys
  induction keys with
  | nil => intro d p _; rfl
  | cons q keys ih =>
      intro d p hp
      rw [List.foldl_cons, ih _ p hp]
      by_cases hq : containsKey q sf
      · rw [if_pos hq]
      · rw [if_neg hq]
        have hqp : p ≠ q := by
          intro hc; rw [hc] at hp; exact hq hp
        rw [lookupKey_eraseKey_ne p q d hqp]

/-- The deletion pass of `update_file_states` never resurrects a row. -/
theorem fold_del_keep_none (sf : Listing) :
    ∀ (keys : List Path) (d : StateDB) (p : Path), lookupKey p d = none →
      lookupKey p (keys.foldl
          (fun d q => if containsKey q sf then d else eraseKey d q) d)
        = none := by
  intro keys
  induction keys with
  | nil => intro d p h; exact h
  | cons q keys ih =>
      intro d p h
      rw [List.foldl_cons]
      refine ih _ p ?_
      by_cases hq : containsKey q sf
      · rw [if_pos hq]; exact h
      · rw [if_neg hq]
        by_cases hqp : p = q
        · rw [hqp, lookupKey_eraseKey_self]
        · rw [lookupKey_eraseKey_ne p q d hqp]; exact h

/-- The deletion pass of `update_file_states` removes every iterated row
whose path is no longer a source file. -/
theorem fold_del_hits (sf : Listing) :
    ∀ (keys : List Path) (d : StateDB) (p : Path), containsKey p sf = false →
      p ∈ keys →
      lookupKey p (keys.foldl
          (fun d q => if containsKey q sf then d else eraseKey d q) d)
        = none := by
  intro keys
  induction keys with
  | nil => intro d p _ hmem; cases hmem
  | cons q keys ih =>
      intro d p hp hmem
      rw [List.foldl_cons]
      rcases List.mem_cons.mp hmem with rfl | hmem
      · refine fold_del_keep_none sf keys _ p ?_
        rw [if_neg (by rw [hp]; exact Bool.false_ne_true), lookupKey_eraseKey_self]
      · exact ih _ p hp hmem

/-- C10's core fact: `update_file_states` makes the `file_states` rows of
the configuration exactly the fresh `synced` rows of the current source
listing, whatever the rows were before. -/
theorem update_file_states_lookup (sf : Listing)
    (hnd : (sf.map Prod.fst).Nodup) (db : StateDB) (p : Path) :
    lookupKey p (update_file_states sf db)
      = (lookupKey p sf).map
          (fun m => ⟨some (calculate_file_hash m), m.mtime, "synced"⟩) := by
  unfold update_file_states
  cases hsf : lookupKey p sf with
  | some m =>
      have hcon : containsKey p sf = true := by rw [containsKey, hsf]; rfl
      rw [fold_del_keep_src sf _ _ p hcon, fold_upsert_lookup sf hnd db p, hsf]
      rfl
  | none =>
      have hcon : containsKey p sf = false := by rw [containsKey, hsf]; rfl
      have hup : lookupKey p (sf.foldl
          (fun d e => update_file_state_in_db d e.1 e.2 "synced") db)
          = lookupKey p db := by
        rw [fold_upsert_lookup sf hnd db p, hsf]
      by_cases hmem : p ∈ (sf.foldl
          (fun d e => update_file_state_in_db d e.1 e.2 "synced") db).map Prod.fst
      · rw [fold_del_hits sf _ _ p hcon hmem]; rfl
      · rw [fold_del_keep_none sf _ _ p ((lookupKey_eq_none_iff _ _).mpr hmem)]
        rfl

/-- C10: after any local-target service run — whatever the engine actually
transferred or failed to transfer — the configuration's `file_states` rows
are exactly one `synced` row per current non-hidden source file, carrying
the source fingerprint and mtime; hidden paths have no row. -/
theorem post_run_file_states (ok : Path → Bool)
    (source_tree : List (Path × FileMeta)) (target_files : Listing)
    (db : StateDB) (hist : List HistRow) (delete_mode : Bool)
    (hnd : (source_tree.map Prod.fst).Nodup) :
    (∀ p, lookupKey p
        (sync_config_local ok (get_files_list source_tree) target_files db hist
          delete_mode).engine.db
      = (lookupKey p (get_files_list source_tree)).map
          (fun m => ⟨some (calculate_file_hash m), m.mtime, "synced"⟩)) ∧
    (∀ p, hiddenPath p = true →
      lookupKey p
        (sync_config_local ok (get_files_list source_tree) target_files db hist
          delete_mode).engine.db = none) := by
  have hnd' : ((get_files_list source_tree).map Prod.fst).Nodup := by
    rw [keys_get_files_list]
    exact List.Nodup.filter _ hnd
  have hmain : ∀ p, lookupKey p
      (sync_config_local ok (get_files_list source_tree) target_files db hist
        delete_mode).engine.db
      = (lookupKey p (get_files_list source_tree)).map
          (fun m => ⟨some (calculate_file_hash m), m.mtime, "synced"⟩) := by
    intro p
    rw [sync_config_local_eq]
    exact update_file_states_lookup (get_files_list source_tree) hnd' _ p
  refine ⟨hmain, fun p hp => ?_⟩
  rw [hmain p, lookupKey_get_files_list_hidden p source_tree hp]
  rfl

/-- After an all-success source loop, every source file's destination
entry either equals the source file (it was copied or updated) or is the
old destination entry, which the skip decision proved equal in size,
no-newer in mtime, and equal in fingerprint. -/
theorem fold_source_mem_allok (tf : Listing) :
    ∀ (l : Listing) (st : EngineSt) (p : Path) (m : FileMeta),
      (l.map Prod.fst).Nodup → (p, m) ∈ l →
      lookupKey p st.target = lookupKey p tf →
      (lookupKey p (l.foldl (sync_source_file (fun _ => true) tf) st).target
          = some m ∨
        ∃ t, lookupKey p (l.foldl (sync_source_file (fun _ => true) tf) st).target
            = some t ∧
          m.size = t.size ∧ ¬ t.mtime < m.mtime ∧
          calculate_file_hash m = calculate_file_hash t) := by
  intro l
  induction l with
  | nil => intro st p m _ hm _; cases hm
  | cons e l ih =>
      intro st p m hnd hm hinv
      rw [List.map_cons, List.nodup_cons] at hnd
      rw [List.foldl_cons]
      rcases List.mem_cons.mp hm with he | hl
      · have hep : e.1 = p := by rw [← he]
        have hem : e.2 = m := by rw [← he]
        have hpl : p ∉ l.map Prod.fst := hep ▸ hnd.1
        obtain ⟨hofft, _⟩ := fold_source_off (fun _ => true) tf p l
          (sync_source_file (fun _ => true) tf st e) hpl
        rw [hofft]
        cases hlt : lookupKey e.1 tf with
        | none =>
            have hstep : (sync_source_file (fun _ => true) tf st e).target
                = upsertKey st.target e.1 e.2 := by
              simp [sync_source_file, hlt]
            rw [hstep, hep, hem, lookupKey_upsertKey_self]
            exact Or.inl rfl
        | some t =>
            by_cases hu : need_update e.2 t st.db e.1 = true
            · have hstep : (sync_source_file (fun _ => true) tf st e).target
                  = upsertKey st.target e.1 e.2 := by
                simp [sync_source_file, hlt, hu]
              rw [hstep, hep, hem, lookupKey_upsertKey_self]
              exact Or.inl rfl
            · have hu' : need_update e.2 t st.db e.1 = false := by
                revert hu; cases need_update e.2 t st.db e.1 <;> simp
              have hstep : (sync_source_file (fun _ => true) tf st e).target
                  = st.target := by
                simp [sync_source_file, hlt, hu']
              have h1 : e.2.size = t.size := by
                by_contra hc
                unfold need_update at hu'
                rw [if_pos hc] at hu'
                simp at hu'
              have h2 : ¬ t.mtime < e.2.mtime := by
                intro hc
                unfold need_update at hu'
                rw [if_neg (fun hne => hne h1), if_pos hc] at hu'
                simp at hu'
              have h3 : calculate_file_hash e.2 = calculate_file_hash t := by
                by_contra hc
                unfold need_update at hu'
                rw [if_neg (fun hne => hne h1), if_neg h2, if_pos hc] at hu'
                simp at hu'
              refine Or.inr ⟨t, ?_, hem ▸ h1, hem ▸ h2, hem ▸ h3⟩
              rw [hstep, hinv, ← hep]
              exact hlt
      · have hpk : p ∈ l.map Prod.fst := List.mem_map.mpr ⟨(p, m), hl, rfl⟩
        have hep : e.1 ≠ p := fun hq => hnd.1 (hq ▸ hpk)
        have hinv' : lookupKey p (sync_source_file (fun _ => true) tf st e).target
            = lookupKey p tf := by
          rcases sync_source_file_cases (fun _ => true) tf st e with
            ⟨ht, _, _⟩ | ⟨ty, _, ht, _, _⟩
          · rw [ht]; exact hinv
          · rw [ht, lookupKey_upsertKey_ne p e.1 _ _ (fun hq => hep hq.symm)]
            exact hinv
        exact ih _ p m hnd.2 hl hinv'

/-- Destination entry of each source file after a full all-success
`sync_folders` run: the source data, or the skip-equivalent old entry. -/
theorem run1_target_mem (sf tf : Listing) (db : StateDB) (dm : Bool)
    (hnd : (sf.map Prod.fst).Nodup) (p : Path) (m : FileMeta)
    (hm : (p, m) ∈ sf) :
    lookupKey p (sync_folders (fun _ => true) sf tf db dm).target = some m ∨
    ∃ t, lookupKey p (sync_folders (fun _ => true) sf tf db dm).target = some t ∧
      m.size = t.size ∧ ¬ t.mtime < m.mtime ∧
      calculate_file_hash m = calculate_file_hash t := by
  have hcon : containsKey p sf = true := by
    rw [containsKey, lookupKey_of_mem_nodup p m sf hnd hm]; rfl
  have hbase := fold_source_mem_allok tf sf
    ⟨tf, db, ⟨0, 0, 0, 0, 0⟩, []⟩ p m hnd hm rfl
  cases dm with
  | false => rw [sync_folders_false]; exact hbase
  | true =>
      rw [sync_folders_true]
      obtain ⟨ht, _⟩ := fold_delete_preserve (fun _ => true) sf _ p (Or.inl hcon)
        tf (sf.foldl (sync_source_file (fun _ => true) tf)
          ⟨tf, db, ⟨0, 0, 0, 0, 0⟩, []⟩)
      rw [ht]
      exact hbase

/-- A source loop whose every file is up to date touches nothing and only
counts skips. -/
theorem fold_source_all_skip (ok : Path → Bool) (tf : Listing) :
    ∀ (l : Listing) (st : EngineSt),
      (∀ e ∈ l, ∃ t, lookupKey e.1 tf = some t ∧
        need_update e.2 t st.db e.1 = false) →
      (l.foldl (sync_source_file ok tf) st).target = st.target ∧
      (l.foldl (sync_source_file ok tf) st).db = st.db ∧
      (l.foldl (sync_source_file ok tf) st).ops = st.ops ∧
      (l.foldl (sync_source_file ok tf) st).stats.copied = st.stats.copied ∧
      (l.foldl (sync_source_file ok tf) st).stats.updated = st.stats.updated ∧
      (l.foldl (sync_source_file ok tf) st).stats.deleted = st.stats.deleted ∧
      (l.foldl (sync_source_file ok tf) st).stats.skipped
        = st.stats.skipped + l.length ∧
      (l.foldl (sync_source_file ok tf) st).stats.errors = st.stats.errors := by
  intro l
  induction l with
  | nil =>
      intro st _
      exact ⟨rfl, rfl, rfl, rfl, rfl, rfl, by simp, rfl⟩
  | cons e l ih =>
      intro st h
      obtain ⟨t, hlt, hnu⟩ := h e (List.mem_cons_self e l)
      have hstep : sync_source_file ok tf st e
          = { st with stats := { st.stats with
              skipped := st.stats.skipped + 1 } } := by
        simp [sync_source_file, hlt, hnu]
      rw [List.foldl_cons, hstep]
      obtain ⟨iht, ihd, iho, ihc, ihu, ihdel, ihs, ihe⟩ :=
        ih { st with stats := { st.stats with
              skipped := st.stats.skipped + 1 } }
          (fun e' he' => h e' (List.mem_cons_of_mem e he'))
      refine ⟨iht, ihd, iho, ihc, ihu, ihdel, ?_, ihe⟩
      rw [ihs, List.length_cons]
      dsimp
      omega

/-- A delete loop whose every entry is either still a source file or
untracked is the identity. -/
theorem fold_delete_id (ok : Path → Bool) (sf : Listing) (sy : List Path) :
    ∀ (l : Listing) (st : EngineSt),
      (∀ e ∈ l, containsKey e.1 sf = true ∨ e.1 ∉ sy) →
      l.foldl (delete_target_file ok sf sy) st = st := by
  intro l
  induction l with
  | nil => intro st _; rfl
  | cons e l ih =>
      intro st h
      have hstep : delete_target_file ok sf sy st e = st := by
        rcases h e (List.mem_cons_self e l) with h1 | h2
        · simp [delete_target_file, h1]
        · by_cases hc : containsKey e.1 sf
          · simp [delete_target_file, hc]
          · simp [delete_target_file, hc, h2]
      rw [List.foldl_cons, hstep]
      exact ih st (fun e' he' => h e' (List.mem_cons_of_mem e he'))

theorem syncStats_ext {a b : SyncStats} (h1 : a.copied = b.copied)
    (h2 : a.updated = b.updated) (h3 : a.deleted = b.deleted)
    (h4 : a.skipped = b.skipped) (h5 : a.errors = b.errors) : a = b := by
  cases a; cases b; simp_all

/-- C3 (idempotence): after an all-success local-target service run, an
immediate second run of the same configuration over the unchanged source
is all-SKIP: zero copies, updates, deletes and errors, one skip per source
file, no operation record, a destination identical to the first run's, the
`file_states` rows observationally unchanged, and a successful result. -/
theorem idempotent_second_run (ok2 : Path → Bool)
    (source_files target_files : Listing) (db : StateDB)
    (hist : List HistRow) (delete_mode : Bool)
    (hnd : (source_files.map Prod.fst).Nodup) :
    let r1 := sync_config_local (fun _ => true) source_files target_files db
      hist delete_mode
    let r2 := sync_config_local ok2 source_files r1.engine.target r1.engine.db
      r1.hist delete_mode
    r2.engine.stats = ⟨0, 0, 0, source_files.length, 0⟩ ∧
    r2.engine.target = r1.engine.target ∧
    r2.engine.ops = [] ∧
    (∀ p, lookupKey p r2.engine.db = lookupKey p r1.engine.db) ∧
    r2.success = true := by
  intro r1 r2
  have ht1 : r1.engine.target
      = (sync_folders (fun _ => true) source_files target_files db
          delete_mode).target := by
    show (sync_config_local (fun _ => true) source_files target_files db hist
      delete_mode).engine.target = _
    rw [sync_config_local_eq]
  have hd1 : r1.engine.db
      = update_file_states source_files
          (sync_folders (fun _ => true) source_files target_files db
            delete_mode).db := by
    show (sync_config_local (fun _ => true) source_files target_files db hist
      delete_mode).engine.db = _
    rw [sync_config_local_eq]
  have hdb1 : ∀ p, lookupKey p r1.engine.db
      = (lookupKey p source_files).map
          (fun m => ⟨some (calculate_file_hash m), m.mtime, "synced"⟩) := by
    intro p
    rw [hd1, update_file_states_lookup source_files hnd _ p]
  have hskip : ∀ e ∈ source_files, ∃ t,
      lookupKey e.1 r1.engine.target = some t ∧
      need_update e.2 t r1.engine.db e.1 = false := by
    rintro ⟨p, m⟩ he
    have hrow : lookupKey p r1.engine.db
        = some ⟨some (calculate_file_hash m), m.mtime, "synced"⟩ := by
      rw [hdb1 p, lookupKey_of_mem_nodup p m source_files hnd he]
      rfl
    rcases run1_target_mem source_files target_files db delete_mode hnd p m he
      with hA | ⟨t, hBt, hsz, hmt, hh⟩
    · refine ⟨m, by rw [ht1]; exact hA, ?_⟩
      unfold need_update
      rw [if_neg (fun hc : m.size ≠ m.size => hc rfl),
        if_neg (Nat.lt_irrefl m.mtime),
        if_neg (fun hc : calculate_file_hash m ≠ calculate_file_hash m => hc rfl),
        hrow]
      simp
    · refine ⟨t, by rw [ht1]; exact hBt, ?_⟩
      unfold need_update
      rw [if_neg (fun hc => hc hsz), if_neg hmt, if_neg (fun hc => hc hh), hrow]
      simp
  obtain ⟨h2t, h2d, h2o, h2c, h2u, h2del, h2s, h2e⟩ :=
    fold_source_all_skip ok2 r1.engine.target source_files
      ⟨r1.engine.target, r1.engine.db, ⟨0, 0, 0, 0, 0⟩, []⟩ hskip
  have hst2 : sync_folders ok2 source_files r1.engine.target r1.engine.db
        delete_mode
      = source_files.foldl (sync_source_file ok2 r1.engine.target)
          ⟨r1.engine.target, r1.engine.db, ⟨0, 0, 0, 0, 0⟩, []⟩ := by
    cases delete_mode with
    | false => rw [sync_folders_false]
    | true =>
        rw [sync_folders_true]
        refine fold_delete_id ok2 source_files _ r1.engine.target _ ?_
        intro e _
        by_cases hc : containsKey e.1 source_files = true
        · exact Or.inl hc
        · refine Or.inr ?_
          have hcf : containsKey e.1 source_files = false := by
            revert hc; cases containsKey e.1 source_files <;> simp
          have hnone : lookupKey e.1 r1.engine.db = none := by
            rw [hdb1 e.1, (not_containsKey_iff _ _).mp hcf]
            rfl
          intro hmem
          rw [h2d] at hmem
          have hnotmem : e.1 ∉ r1.engine.db.map Prod.fst :=
            (lookupKey_eq_none_iff e.1 r1.engine.db).mp hnone
          exact hnotmem hmem
  have ht2 : r2.engine.target
      = (sync_folders ok2 source_files r1.engine.target r1.engine.db
          delete_mode).target := by
    show (sync_config_local ok2 source_files r1.engine.target r1.engine.db
      r1.hist delete_mode).engine.target = _
    rw [sync_config_local_eq]
  have hs2 : r2.engine.stats
      = (sync_folders ok2 source_files r1.engine.target r1.engine.db
          delete_mode).stats := by
    show (sync_config_local ok2 source_files r1.engine.target r1.engine.db
      r1.hist delete_mode).engine.stats = _
    rw [sync_config_local_eq]
  have ho2 : r2.engine.ops
      = (sync_folders ok2 source_files r1.engine.target r1.engine.db
          delete_mode).ops := by
    show (sync_config_local ok2 source_files r1.engine.target r1.engine.db
      r1.hist delete_mode).engine.ops = _
    rw [sync_config_local_eq]
  have hd2 : r2.engine.db
      = update_file_states source_files
          (sync_folders ok2 source_files r1.engine.target r1.engine.db
            delete_mode).db := by
    show (sync_config_local ok2 source_files r1.engine.target r1.engine.db
      r1.hist delete_mode).engine.db = _
    rw [sync_config_local_eq]
  have hsu2 : r2.success
      = decide ((sync_folders ok2 source_files r1.engine.target r1.engine.db
          delete_mode).stats.errors = 0) := by
    show (sync_config_local ok2 source_files r1.engine.target r1.engine.db
      r1.hist delete_mode).success = _
    rw [sync_config_local_eq]
  refine ⟨?_, ?_, ?_, ?_, ?_⟩
  · refine syncStats_ext ?_ ?_ ?_ ?_ ?_
    · rw [hs2, hst2]; exact h2c
    · rw [hs2, hst2]; exact h2u
    · rw [hs2, hst2]; exact h2del
    · rw [hs2, hst2, h2s]
      show 0 + source_files.length = source_files.length
      omega
    · rw [hs2, hst2]; exact h2e
  · rw [ht2, hst2]; exact h2t
  · rw [ho2, hst2]; exact h2o
  · intro p
    rw [hd2, hst2, h2d]
    show lookupKey p (update_file_states source_files r1.engine.db) = _
    rw [update_file_states_lookup source_files hnd _ p, hdb1 p]
  · rw [hsu2, hst2, h2e]
    rfl

theorem idempotent_second_run_witness :
    (([(["x.txt"], (⟨10, 5, 7⟩ : FileMeta))].map Prod.fst).Nodup) ∧
    (sync_config_local (fun _ => true) [(["x.txt"], ⟨10, 5, 7⟩)]
        (sync_config_local (fun _ => true) [(["x.txt"], ⟨10, 5, 7⟩)] [] [] []
          true).engine.target
        (sync_config_local (fun _ => true) [(["x.txt"], ⟨10, 5, 7⟩)] [] [] []
          true).engine.db
        (sync_config_local (fun _ => true) [(["x.txt"], ⟨10, 5, 7⟩)] [] [] []
          true).hist
        true).engine.stats
      = ⟨0, 0, 0, 1, 0⟩ :=
  ⟨by decide,
    (idempotent_second_run (fun _ => true) [(["x.txt"], ⟨10, 5, 7⟩)] [] [] []
      true (by decide)).1⟩

theorem post_run_file_states_witness :
    (([(["x.txt"], (⟨10, 5, 7⟩ : FileMeta)), ([".hid"], ⟨1, 1, 1⟩)].map
        Prod.fst).Nodup) ∧
    (∀ p, lookupKey p
        (sync_config_local (fun _ => false)
          (get_files_list [(["x.txt"], ⟨10, 5, 7⟩), ([".hid"], ⟨1, 1, 1⟩)])
          [] [] [] true).engine.db
      = (lookupKey p (get_files_list
            [(["x.txt"], ⟨10, 5, 7⟩), ([".hid"], ⟨1, 1, 1⟩)])).map
          (fun m => ⟨some (calculate_file_hash m), m.mtime, "synced"⟩)) :=
  ⟨by decide,
    (post_run_file_states (fun _ => false)
      [(["x.txt"], ⟨10, 5, 7⟩), ([".hid"], ⟨1, 1, 1⟩)] [] [] [] true
      (by decide)).1⟩

end Karma
